import Mathlib

/-!
Verification development for the date/time expression parser of the
`do-bot` repository (`src/datetime.rs`).

The parser is built on the `nom` combinator library.  We give a shallow
embedding: parser input is a list of characters, a parser returns either
the pair (remaining input, value) or the input at the failure site (the
payload `nom` stores in `Err::Error((input, kind))`; the kind is dropped
because the program only ever extracts the input slice, see
`parse_time`'s `map_err`).  `chrono` values are modelled at second
granularity: `TimeDelta` as an `Int` of seconds with the documented
checked bounds, `DateTime<Utc>` as an `Int` of seconds since the epoch,
`NaiveDate` as an `Int` day number, `NaiveTime` as a `Nat` second of
day.  A `chrono_tz::Tz` is modelled the way the tz database defines it:
an initial UTC offset plus a list of (transition instant, new offset)
pairs, from which local-to-UTC resolution (none / single / ambiguous) is
computed exactly as `chrono` does.

Since the source reads the wall clock ad hoc (`Utc::now()` appears in
`parse_time`, `mixed`, `abs` and `special_words`), the embedding takes
one clock-sample parameter per call site; `parse_time` with a single
sample feeds the same value to all four sites.
-/

namespace DoBot

/-! ## Characters and input -/

def cs (s : String) : List Char := s.data

abbrev Input := List Char

/-- Result of a nom parser: `Ok((remaining, value))` or `Err(input-at-failure)`. -/
abbrev PRes (α : Type) := Except Input (Input × α)

abbrev P (α : Type) := Input → PRes α

/-! ## chrono numeric model -/

/-- `i64::MAX`, the bound checked by `str::parse::<i64>`. -/
def i64Max : Nat := 9223372036854775807

/-- `u32::MAX`, the bound checked by `str::parse::<u32>`. -/
def u32Max : Nat := 4294967295

/-- `i32::MAX`, the bound checked by `str::parse::<i32>` (digits only, so no sign). -/
def i32Max : Nat := 2147483647

/-- Largest whole-second magnitude representable in `chrono::TimeDelta`
(`i64::MAX` milliseconds, truncated to seconds). -/
def tdMaxSecs : Int := 9223372036854775

/-- `TimeDelta::try_seconds` / `TimeDelta::new(secs, 0)`: in-range check. -/
def tdNew (secs : Int) : Option Int :=
  if -tdMaxSecs ≤ secs ∧ secs ≤ tdMaxSecs then some secs else none

/-- `TimeDelta::try_minutes/try_hours/try_days/try_weeks`:
`n.checked_mul(factor)` in `i64` followed by `try_seconds`. -/
def tryScaled (factor : Int) (n : Int) : Option Int :=
  if n * factor < -(9223372036854775808 : Int) ∨ (9223372036854775807 : Int) < n * factor
  then none
  else tdNew (n * factor)

/-- `TimeDelta::checked_add` (all deltas here have zero sub-second part). -/
def tdCheckedAdd (a b : Int) : Option Int := tdNew (a + b)

/-! ## chrono calendar model -/

def isLeap (y : Int) : Bool := y % 4 == 0 && (y % 100 != 0 || y % 400 == 0)

def daysInMonth (y m : Int) : Int :=
  if m = 2 then (if isLeap y then 29 else 28)
  else if m = 4 ∨ m = 6 ∨ m = 9 ∨ m = 11 then 30
  else 31

/-- Day number of a proleptic-Gregorian calendar date (epoch 1970-01-01). -/
def daysFromCivil (y m d : Int) : Int :=
  let y' := if m ≤ 2 then y - 1 else y
  let era := Int.fdiv y' 400
  let yoe := y' - era * 400
  let mp := Int.emod (m + 9) 12
  let doy := Int.fdiv (153 * mp + 2) 5 + d - 1
  let doe := yoe * 365 + Int.fdiv yoe 4 - Int.fdiv yoe 100 + doy
  era * 146097 + doe - 719468

/-- UTC epoch seconds of a civil date-time. -/
def civilSecs (y m d h mi s : Int) : Int :=
  daysFromCivil y m d * 86400 + h * 3600 + mi * 60 + s

/-- `chrono::NaiveDate::{MIN, MAX}` as day numbers (years -262144 ..= 262143). -/
def dayMinNum : Int := daysFromCivil (-262144) 1 1

def dayMaxNum : Int := daysFromCivil 262143 12 31

/-- `NaiveDateTime::MIN` in seconds. -/
def utcMinSecs : Int := dayMinNum * 86400

/-- `NaiveDateTime::MAX` in seconds (second granularity). -/
def utcMaxSecs : Int := dayMaxNum * 86400 + 86399

/-- `NaiveDate::from_ymd_opt`, result as a day number. -/
def fromYmd (y m d : Int) : Option Int :=
  if -262144 ≤ y ∧ y ≤ 262143 ∧ 1 ≤ m ∧ m ≤ 12 ∧ 1 ≤ d ∧ d ≤ daysInMonth y m
  then some (daysFromCivil y m d) else none

/-- `NaiveTime::from_hms_opt`, result as second of day. -/
def fromHms (h m s : Nat) : Option Nat :=
  if h < 24 ∧ m < 60 ∧ s < 60 then some (h * 3600 + m * 60 + s) else none

/-- `NaiveDate::checked_add_days` (day number stays in the valid range). -/
def checkedAddDays (d : Int) (n : Int) : Option Int :=
  if dayMinNum ≤ d + n ∧ d + n ≤ dayMaxNum then some (d + n) else none

/-- `DateTime::checked_add_signed`: addition on the naive UTC value with range check. -/
def utcCheckedAdd (t td : Int) : Option Int :=
  if utcMinSecs ≤ t + td ∧ t + td ≤ utcMaxSecs then some (t + td) else none

/-! ## chrono-tz timezone model -/

/-- A timezone as in the tz database: an initial UTC offset (seconds east)
and a list of transitions (UTC instant, offset from that instant on),
in ascending order of instants. -/
structure Tz where
  initOffset : Int
  transitions : List (Int × Int)
deriving DecidableEq, Repr

/-- UTC offset in effect at UTC instant `u`. -/
def offsetAt (tz : Tz) (u : Int) : Int :=
  tz.transitions.foldl (fun acc tr => if tr.1 ≤ u then tr.2 else acc) tz.initOffset

/-- `chrono::LocalResult`: resolving a local wall-clock value to UTC. -/
inductive LocalRes
  | lnone
  | lsingle (u : Int)
  | lamb (earliest latest : Int)
deriving DecidableEq, Repr

/-- `TimeZone::from_local_datetime` / `NaiveDateTime::and_local_timezone`:
the UTC instants whose local representation equals `l`, classified as
gap / unique / ambiguous (earliest, latest). -/
def localToUtc (tz : Tz) (l : Int) : LocalRes :=
  let offs := tz.initOffset :: tz.transitions.map Prod.snd
  let us := ((offs.map (fun o => l - o)).filter (fun u => offsetAt tz u = l - u)).dedup
  match us with
  | [] => .lnone
  | [u] => .lsingle u
  | u :: rest => .lamb (rest.foldl min u) (rest.foldl max u)

/-- `LocalResult::latest`. -/
def LocalRes.latestO : LocalRes → Option Int
  | .lnone => none
  | .lsingle u => some u
  | .lamb _ l => some l

/-- `LocalResult::single`. -/
def LocalRes.singleO : LocalRes → Option Int
  | .lsingle u => some u
  | _ => none

/-- Local calendar day of UTC instant `u` (`with_timezone(..).date_naive()` /
`overflowing_naive_local().date()`). -/
def localDateOf (tz : Tz) (u : Int) : Int :=
  Int.fdiv (u + offsetAt tz u) 86400

/-! ## nom combinator model

Each combinator mirrors the nom implementation used by the source, with
the error payload being the input at the failure site (the `(I, ErrorKind)`
error type keeps the input slice; `or`/`append`/`add_context` for that
type keep the newest payload, so `alt` surfaces the last branch's error
and `context` is the identity on payloads). -/

/-- `nom::bytes::complete::tag`. -/
def tag (t : Input) : P Input := fun inp =>
  if t.isPrefixOf inp then .ok (inp.drop t.length, t) else .error inp

/-- `nom::branch::alt` over a list of alternatives: first success,
otherwise the last alternative's error. -/
def altL : List (P α) → P α
  | [], inp => .error inp
  | [p], inp => p inp
  | p :: q :: rest, inp =>
    match p inp with
    | .ok r => .ok r
    | .error _ => altL (q :: rest) inp

/-- `nom::combinator::opt`. -/
def opt (p : P α) : P (Option α) := fun inp =>
  match p inp with
  | .ok (rem, v) => .ok (rem, some v)
  | .error _ => .ok (inp, none)

/-- Sequencing, as in nom's `Parser` implementation for tuples. -/
def pseq (p : P α) (q : P β) : P (α × β) := fun inp =>
  match p inp with
  | .error e => .error e
  | .ok (rem, a) =>
    match q rem with
    | .error e => .error e
    | .ok (rem2, b) => .ok (rem2, (a, b))

/-- `Parser::map`. -/
def pmap (p : P α) (f : α → β) : P β := fun inp =>
  match p inp with
  | .error e => .error e
  | .ok (rem, a) => .ok (rem, f a)

/-- `Parser::map_opt`: on `None` the error is reported at the original input. -/
def mapOpt (p : P α) (f : α → Option β) : P β := fun inp =>
  match p inp with
  | .error e => .error e
  | .ok (rem, a) =>
    match f a with
    | some b => .ok (rem, b)
    | none => .error inp

/-- `nom::character::complete::digit1`: one or more ASCII digits, maximal run. -/
def digit1 : P Input := fun inp =>
  if (inp.takeWhile Char.isDigit).isEmpty then .error inp
  else .ok (inp.dropWhile Char.isDigit, inp.takeWhile Char.isDigit)

/-- Numeric value of a run of ASCII digits. -/
def digitsVal (ds : List Char) : Nat :=
  ds.foldl (fun acc c => acc * 10 + (c.toNat - 48)) 0

/-- `fn number<T>` = `map_res(digit1, str::parse::<T>)`; for a digit-only
string the parse fails exactly on overflow of `T`, so the model is
parametrised by `T::MAX`.  On failure `map_res` reports the original input. -/
def number (bound : Nat) : P Nat := fun inp =>
  match digit1 inp with
  | .error e => .error e
  | .ok (rem, ds) =>
    if digitsVal ds ≤ bound then .ok (rem, digitsVal ds) else .error inp

/-! ### nom's `permutation`

`nom::branch::permutation` loops: it scans the not-yet-applied
sub-parsers in listed order, applies the first one that succeeds on the
current input and restarts the scan; when a scan applies nothing it
either returns the collected results (all applied) or the error of the
last sub-parser tried in that scan.  We model the loop with fuel; one
more round than the number of sub-parsers always suffices because every
round that continues fills one slot. -/

inductive PassRes (α : Type)
  | progressed (pairs : List (P α × Option α)) (inp : Input)
  | exhausted (err : Option Input)

def permPass : List (P α × Option α) → Input → Option Input → PassRes α
  | [], _, err => .exhausted err
  | (p, none) :: rest, inp, _err =>
    match p inp with
    | .ok (rem, v) => .progressed ((p, some v) :: rest) rem
    | .error e =>
      match permPass rest inp (some e) with
      | .progressed rest' inp' => .progressed ((p, none) :: rest') inp'
      | .exhausted e' => .exhausted e'
  | (p, some v) :: rest, inp, err =>
    match permPass rest inp err with
    | .progressed rest' inp' => .progressed ((p, some v) :: rest') inp'
    | .exhausted e' => .exhausted e'

def permLoop : Nat → List (P α × Option α) → Input → PRes (List (Option α))
  | 0, _, inp => .error inp
  | fuel + 1, pairs, inp =>
    match permPass pairs inp none with
    | .progressed pairs' inp' => permLoop fuel pairs' inp'
    | .exhausted none => .ok (inp, pairs.map (fun pr => pr.2))
    | .exhausted (some e) => .error e

/-- `nom::branch::permutation` over a homogeneous tuple of sub-parsers.
At success every slot was applied exactly once, so each result is `some`. -/
def permutation (ps : List (P α)) : P (List (Option α)) := fun inp =>
  permLoop (ps.length + 1) (ps.map (fun p => (p, none))) inp

/-! ## The grammar of `datetime.rs` -/

/-- `fn tag_maybe_lowercase`.  `str::to_lowercase` restricted to the
alphabet actually occurring in the tags (ASCII letters and `Ü`). -/
def charLower (c : Char) : Char :=
  if 'A' ≤ c ∧ c ≤ 'Z' then Char.ofNat (c.toNat + 32)
  else if c = 'Ä' then 'ä'
  else if c = 'Ö' then 'ö'
  else if c = 'Ü' then 'ü'
  else c

def tagMaybeLowercase (t : Input) : P Input :=
  altL [tag t, tag (t.map charLower)]

/-- The unit-suffix recognizer shared shape: the `context(...)` wrapper of
the source is the identity in this model (it only annotates errors). -/
def rel_seconds : P Int :=
  mapOpt
    (pseq (number i64Max)
      (altL
        [pmap (pseq (opt (tag (cs " "))) (altL [tag (cs "sec"), tag (cs "s")]))
          (fun _ => ()),
         pmap (pseq (tag (cs " "))
            (altL [tagMaybeLowercase (cs "Sekunden"), tagMaybeLowercase (cs "Sekunde")]))
          (fun _ => ())]))
    (fun x => tdNew (Int.ofNat x.1))

def rel_minutes : P Int :=
  mapOpt
    (pseq (number i64Max)
      (altL
        [pmap (pseq (opt (tag (cs " "))) (altL [tag (cs "min"), tag (cs "m")]))
          (fun _ => ()),
         pmap (pseq (tag (cs " "))
            (altL [tagMaybeLowercase (cs "Minuten"), tagMaybeLowercase (cs "Minute")]))
          (fun _ => ())]))
    (fun x => tryScaled 60 (Int.ofNat x.1))

def rel_hours : P Int :=
  mapOpt
    (pseq (number i64Max)
      (altL
        [pmap (pseq (opt (tag (cs " "))) (tag (cs "h"))) (fun _ => ()),
         pmap (pseq (tag (cs " "))
            (altL [tagMaybeLowercase (cs "Stunden"), tagMaybeLowercase (cs "Stunde")]))
          (fun _ => ())]))
    (fun x => tryScaled 3600 (Int.ofNat x.1))

def rel_days : P Int :=
  mapOpt
    (pseq (number i64Max)
      (altL
        [pmap (pseq (opt (tag (cs " "))) (tag (cs "d"))) (fun _ => ()),
         pmap (pseq (tag (cs " "))
            (altL [tagMaybeLowercase (cs "Tagen"), tagMaybeLowercase (cs "Tage"),
                   tagMaybeLowercase (cs "Tag")]))
          (fun _ => ())]))
    (fun x => tryScaled 86400 (Int.ofNat x.1))

def rel_weeks : P Int :=
  mapOpt
    (pseq (number i64Max)
      (altL
        [pmap (pseq (opt (tag (cs " "))) (tag (cs "w"))) (fun _ => ()),
         pmap (pseq (tag (cs " "))
            (altL [tagMaybeLowercase (cs "Wochen"), tagMaybeLowercase (cs "Woche")]))
          (fun _ => ())]))
    (fun x => tryScaled 604800 (Int.ofNat x.1))

/-- The summing closure of `rel`/`part_rel`: fold `checked_add` over the
units that matched (`filter_map` of the permutation slots). -/
def sumChecked (ts : List Int) : Option Int :=
  ts.foldlM tdCheckedAdd 0

/-- `fn rel`: permutation of the five optional unit recognizers, checked
sum, then the non-zero filter. -/
def rel : P Int :=
  mapOpt
    (mapOpt
      (permutation [opt rel_seconds, opt rel_minutes, opt rel_hours, opt rel_days,
                    opt rel_weeks])
      (fun slots => sumChecked (slots.filterMap Option.join)))
    (fun t => if t = 0 then none else some t)

/-- `fn part_rel`: day/week-only variant used by the Mixed grammar. -/
def part_rel : P Int :=
  mapOpt
    (mapOpt (permutation [opt rel_days, opt rel_weeks])
      (fun slots => sumChecked (slots.filterMap Option.join)))
    (fun t => if t = 0 then none else some t)

/-- The separator alternation `" und " | ", " | " "`. -/
def sepP : P Input := altL [tag (cs " und "), tag (cs ", "), tag (cs " ")]

/-- `fn full_rel`, with fuel for the recursion (`full_rel` recurses after
`rel` and the separator consumed at least two characters, so fuel
`input length + 1` is never exhausted; the fuel-0 branch is unreachable). -/
def full_relF : Nat → P Int
  | 0 => fun inp => .error inp
  | fuel + 1 => fun inp =>
    mapOpt
      (pseq (opt (tagMaybeLowercase (cs "In ")))
        (pseq rel (opt (pseq sepP (full_relF fuel)))))
      (fun x =>
        match x.2.2 with
        | some nx => tdCheckedAdd x.2.1 nx.2
        | none => some x.2.1)
      inp

def full_rel : P Int := fun inp => full_relF (inp.length + 1) inp

/-- `fn full_part_rel` (same chaining over `part_rel`). -/
def full_part_relF : Nat → P Int
  | 0 => fun inp => .error inp
  | fuel + 1 => fun inp =>
    mapOpt
      (pseq (opt (tagMaybeLowercase (cs "In ")))
        (pseq part_rel (opt (pseq sepP (full_part_relF fuel)))))
      (fun x =>
        match x.2.2 with
        | some nx => tdCheckedAdd x.2.1 nx.2
        | none => some x.2.1)
      inp

def full_part_rel : P Int := fun inp => full_part_relF (inp.length + 1) inp

/-- `fn date`: `number<u32> "." number<u32> "." number<i32>` as day.month.year. -/
def date : P Int :=
  mapOpt
    (pseq (number u32Max)
      (pseq (tag (cs "."))
        (pseq (number u32Max)
          (pseq (tag (cs ".")) (number i32Max)))))
    (fun x => fromYmd (Int.ofNat x.2.2.2.2) (Int.ofNat x.2.2.1) (Int.ofNat x.1))

/-- `fn full_date`. -/
def full_date : P Int :=
  pmap (pseq (opt (tagMaybeLowercase (cs "Am "))) date) (fun x => x.2)

/-- `fn time`. -/
def time : P Nat :=
  mapOpt
    (pseq (number u32Max)
      (pseq (tag (cs ":"))
        (pseq (number u32Max)
          (pseq (opt (pseq (tag (cs ":")) (number u32Max)))
            (opt (tagMaybeLowercase (cs " Uhr")))))))
    (fun x =>
      fromHms x.1 x.2.2.1
        (match x.2.2.2.1 with
         | some sp => sp.2
         | none => 0))

/-- `fn full_time`. -/
def full_time : P Nat :=
  pmap (pseq (opt (tagMaybeLowercase (cs "Um "))) time) (fun x => x.2)

/-- `fn special_words`: each branch reads the clock (`Utc::now()`); the
sample it sees is the parameter `nowSpecial`. -/
def special_words (tz : Tz) (nowSpecial : Int) : P Int :=
  altL
    [pmap (tagMaybeLowercase (cs "Heute")) (fun _ => localDateOf tz nowSpecial),
     mapOpt (tagMaybeLowercase (cs "Morgen"))
       (fun _ => checkedAddDays (localDateOf tz nowSpecial) 1),
     mapOpt (tagMaybeLowercase (cs "Übermorgen"))
       (fun _ => checkedAddDays (localDateOf tz nowSpecial) 2)]

/-- The first `map_opt` closure of `fn abs`:
`NaiveDateTime::new(d, t).and_local_timezone(tz).latest()`. -/
def absResolve (tz : Tz) (dt : Int × Nat) : Option Int :=
  (localToUtc tz (dt.1 * 86400 + Int.ofNat dt.2)).latestO

/-- `fn abs`: four orderings of date/special-word and time, local
resolution preferring the latest instant, then the strict-future filter
against the clock sample `nowAbs` (`(dt > Utc::now()).then_some(dt)`);
`to_utc` is the identity on the modelled instant. -/
def abs (tz : Tz) (nowAbs nowSpecial : Int) : P Int := fun inp =>
  mapOpt
    (mapOpt
      (altL
        [pmap (pseq full_date (pseq (tag (cs " ")) full_time))
          (fun x => (x.1, x.2.2)),
         pmap (pseq full_time (pseq (tag (cs " ")) full_date))
          (fun x => (x.2.2, x.1)),
         pmap (pseq (special_words tz nowSpecial) (pseq (tag (cs " ")) full_time))
          (fun x => (x.1, x.2.2)),
         pmap (pseq full_time (pseq (tag (cs " ")) (special_words tz nowSpecial)))
          (fun x => (x.2.2, x.1))])
      (absResolve tz))
    (fun dt => if nowAbs < dt then some dt else none)
    inp

/-- The `map_opt` closure of `fn mixed`:
`Utc::now().with_timezone(&tz).checked_add_signed(t)?.with_time(ft).single()`,
with the clock sample `nowMixed`.  Note: no future check, and `single`
(not `latest`) is used. -/
def mixedCombine (tz : Tz) (nowMixed : Int) (tft : Int × Nat) : Option Int := do
  let added ← utcCheckedAdd nowMixed tft.1
  (localToUtc tz (localDateOf tz added * 86400 + Int.ofNat tft.2)).singleO

/-- `fn mixed`. -/
def mixed (tz : Tz) (nowMixed : Int) : P Int := fun inp =>
  mapOpt
    (altL
      [pmap (pseq full_part_rel (pseq (tag (cs " ")) full_time))
        (fun x => (x.1, x.2.2)),
       pmap (pseq full_time (pseq (tag (cs " ")) full_part_rel))
        (fun x => (x.2.2, x.1))])
    (mixedCombine tz nowMixed)
    inp

/-- The dispatcher's alternation, one clock-sample parameter per
`Utc::now()` call site. -/
def topAlt (tz : Tz) (nRel nMixed nAbs nSpecial : Int) : P Int :=
  altL
    [mixed tz nMixed,
     abs tz nAbs nSpecial,
     mapOpt full_rel (fun td => utcCheckedAdd nRel td)]

/-- `fn parse_time` with per-call-site clock samples: the alternation,
`map_err` extracting the input slice, and the full-consumption check
returning the unconsumed remainder as the error. -/
def parseTimeM (inp : Input) (tz : Tz) (nRel nMixed nAbs nSpecial : Int) :
    Except Input Int :=
  match topAlt tz nRel nMixed nAbs nSpecial inp with
  | .error e => .error e
  | .ok (rem, v) => if rem.isEmpty then .ok v else .error rem

/-- `fn parse_time` under a single clock reading `now` fed to every site. -/
def parse_time (inp : Input) (tz : Tz) (now : Int) : Except Input Int :=
  parseTimeM inp tz now now now now

/-! ## Concrete timezones used in the theorems -/

/-- A timezone with UTC offset 0 and no transitions. -/
def tzUtc : Tz := ⟨0, []⟩

/-- Fragment of IANA `Europe/Berlin`: the fall-back transition of
2025-10-26 (01:00 UTC, +02:00 → +01:00) and the spring-forward
transition of 2026-03-29 (01:00 UTC, +01:00 → +02:00). -/
def tzBerlin : Tz :=
  ⟨7200, [(civilSecs 2025 10 26 1 0 0, 3600), (civilSecs 2026 3 29 1 0 0, 7200)]⟩

/-- Fragment of IANA `America/Anchorage`: at 1867-10-19 14:31:37 local
mean time the offset changed from +14:00:24 to -9:59:36 (the Alaska
purchase / date-line move), a backward wall-clock jump of 24 hours.
Later transitions (from 1900 on) do not affect instants in 1867. -/
def tzAnch : Tz :=
  ⟨50424, [(civilSecs 1867 10 19 14 31 37 - 50424, -35976)]⟩

/-- All characters of a list are ASCII digits. -/
def allDigits (l : List Char) : Prop := ∀ c ∈ l, c.isDigit = true

/-- Sequential application of a list of parsers, used to characterize
nom's `permutation` over `opt`-wrapped components: since an `opt` parser
never fails, every scan of the permutation loop applies the first
not-yet-applied component, so the loop degenerates to left-to-right
sequential application (proved in `permutation_seqOpts`). -/
def seqOpts {α : Type} : List (P α) → P (List (Option α))
  | [], inp => .ok (inp, [])
  | p :: ps, inp =>
    match p inp with
    | .error e => .error e
    | .ok (rem, v) =>
      match seqOpts ps rem with
      | .error e => .error e
      | .ok (rem2, vs) => .ok (rem2, some v :: vs)

/-! ## General lemmas about the combinator model -/

theorem mapOpt_ok {α β : Type} {p : P α} {f : α → Option β} {inp rem : Input} {b : β}
    (h : mapOpt p f inp = .ok (rem, b)) :
    ∃ a, p inp = .ok (rem, a) ∧ f a = some b := by
  unfold mapOpt at h
  split at h
  next e heq => exact absurd h (by simp)
  next r a heq =>
    split at h
    next b' hf =>
      simp only [Except.ok.injEq, Prod.mk.injEq] at h
      obtain ⟨h1, h2⟩ := h
      subst h1 h2
      exact ⟨a, heq, hf⟩
    next hf => exact absurd h (by simp)

theorem mapOpt_error_of {α β : Type} {p : P α} {f : α → Option β} {inp e : Input}
    (h : p inp = .error e) : mapOpt p f inp = .error e := by
  simp [mapOpt, h]

theorem mapOpt_none_of {α β : Type} {p : P α} {f : α → Option β} {inp rem : Input} {a : α}
    (h : p inp = .ok (rem, a)) (hf : f a = none) : mapOpt p f inp = .error inp := by
  simp [mapOpt, h, hf]

theorem mapOpt_ok_of {α β : Type} {p : P α} {f : α → Option β} {inp rem : Input} {a : α}
    {b : β} (h : p inp = .ok (rem, a)) (hf : f a = some b) :
    mapOpt p f inp = .ok (rem, b) := by
  simp [mapOpt, h, hf]

theorem pmap_ok {α β : Type} {p : P α} {f : α → β} {inp rem : Input} {b : β}
    (h : pmap p f inp = .ok (rem, b)) :
    ∃ a, p inp = .ok (rem, a) ∧ f a = b := by
  unfold pmap at h
  split at h
  next e heq => exact absurd h (by simp)
  next r a heq =>
    simp only [Except.ok.injEq, Prod.mk.injEq] at h
    obtain ⟨h1, h2⟩ := h
    subst h1
    exact ⟨a, heq, h2⟩

theorem pmap_error_of {α β : Type} {p : P α} {f : α → β} {inp e : Input}
    (h : p inp = .error e) : pmap p f inp = .error e := by
  simp [pmap, h]

theorem pmap_ok_of {α β : Type} {p : P α} {f : α → β} {inp rem : Input} {a : α}
    (h : p inp = .ok (rem, a)) : pmap p f inp = .ok (rem, f a) := by
  simp [pmap, h]

theorem pseq_ok {α β : Type} {p : P α} {q : P β} {inp rem : Input} {a : α} {b : β}
    (h : pseq p q inp = .ok (rem, (a, b))) :
    ∃ mid, p inp = .ok (mid, a) ∧ q mid = .ok (rem, b) := by
  unfold pseq at h
  split at h
  next e heq => exact absurd h (by simp)
  next mid a' heq =>
    split at h
    next e hq => exact absurd h (by simp)
    next rem' b' hq =>
      simp only [Except.ok.injEq, Prod.mk.injEq] at h
      obtain ⟨h1, h2, h3⟩ := h
      subst h1 h2 h3
      exact ⟨mid, heq, hq⟩

theorem pseq_error_of {α β : Type} {p : P α} {q : P β} {inp e : Input}
    (h : p inp = .error e) : pseq p q inp = .error e := by
  simp [pseq, h]

theorem pseq_error_of2 {α β : Type} {p : P α} {q : P β} {inp mid e : Input} {a : α}
    (h : p inp = .ok (mid, a)) (h2 : q mid = .error e) : pseq p q inp = .error e := by
  simp [pseq, h, h2]

theorem pseq_ok_of {α β : Type} {p : P α} {q : P β} {inp mid rem : Input} {a : α} {b : β}
    (h : p inp = .ok (mid, a)) (h2 : q mid = .ok (rem, b)) :
    pseq p q inp = .ok (rem, (a, b)) := by
  simp [pseq, h, h2]

theorem opt_ok_some {α : Type} {p : P α} {inp rem : Input} {v : α}
    (h : opt p inp = .ok (rem, some v)) : p inp = .ok (rem, v) := by
  unfold opt at h
  split at h
  next r a heq =>
    simp only [Except.ok.injEq, Prod.mk.injEq, Option.some.injEq] at h
    obtain ⟨h1, h2⟩ := h
    subst h1 h2
    exact heq
  next heq => simp at h

theorem opt_of_error {α : Type} {p : P α} {inp e : Input}
    (h : p inp = .error e) : opt p inp = .ok (inp, none) := by
  simp [opt, h]

theorem opt_of_ok {α : Type} {p : P α} {inp rem : Input} {v : α}
    (h : p inp = .ok (rem, v)) : opt p inp = .ok (rem, some v) := by
  simp [opt, h]

/-! ## Checked-arithmetic lemmas -/

theorem tdNew_some {s v : Int} (h : tdNew s = some v) :
    v = s ∧ -tdMaxSecs ≤ v ∧ v ≤ tdMaxSecs := by
  unfold tdNew at h
  split at h
  next hc =>
    simp only [Option.some.injEq] at h
    subst h
    exact ⟨rfl, hc.1, hc.2⟩
  next => exact absurd h (by simp)

theorem tryScaled_some {k n v : Int} (h : tryScaled k n = some v) :
    v = n * k ∧ -tdMaxSecs ≤ v ∧ v ≤ tdMaxSecs := by
  unfold tryScaled at h
  split at h
  next => exact absurd h (by simp)
  next => obtain ⟨h1, h2⟩ := tdNew_some h; exact ⟨h1, h2⟩

theorem tdCheckedAdd_some {a b v : Int} (h : tdCheckedAdd a b = some v) :
    v = a + b ∧ -tdMaxSecs ≤ v ∧ v ≤ tdMaxSecs :=
  tdNew_some h

theorem sumChecked_bounds {ts : List Int} {acc s : Int}
    (hacc : -tdMaxSecs ≤ acc ∧ acc ≤ tdMaxSecs)
    (h : List.foldlM tdCheckedAdd acc ts = some s) :
    -tdMaxSecs ≤ s ∧ s ≤ tdMaxSecs := by
  induction ts generalizing acc with
  | nil =>
    simp only [List.foldlM_nil, Option.pure_def, Option.some.injEq] at h
    subst h
    exact hacc
  | cons t ts ih =>
    simp only [List.foldlM_cons] at h
    cases ha : tdCheckedAdd acc t with
    | none => rw [ha] at h; exact absurd h (by simp)
    | some a' =>
      rw [ha] at h
      exact ih (tdCheckedAdd_some ha).2 h

theorem sumChecked_ge {ts : List Int} {acc s : Int}
    (hts : ∀ t ∈ ts, 0 ≤ t)
    (h : List.foldlM tdCheckedAdd acc ts = some s) :
    acc ≤ s := by
  induction ts generalizing acc with
  | nil =>
    simp only [List.foldlM_nil, Option.pure_def, Option.some.injEq] at h
    omega
  | cons t ts ih =>
    simp only [List.foldlM_cons] at h
    cases ha : tdCheckedAdd acc t with
    | none => rw [ha] at h; exact absurd h (by simp)
    | some a' =>
      rw [ha] at h
      have h1 := (tdCheckedAdd_some ha).1
      have h2 := ih (fun x hx => hts x (List.mem_cons_of_mem _ hx)) h
      have h3 := hts t (List.mem_cons_self _ _)
      omega

/-! ## Invariants of the unit recognizers -/

theorem number_ok_nonneg {bound : Nat} {inp rem : Input} {n : Nat}
    (h : number bound inp = .ok (rem, n)) : n ≤ bound := by
  unfold number at h
  split at h
  next => exact absurd h (by simp)
  next ds hds =>
    split at h
    next hb =>
      simp only [Except.ok.injEq, Prod.mk.injEq] at h
      omega
    next => exact absurd h (by simp)

theorem rel_seconds_inv {inp rem : Input} {v : Int}
    (h : rel_seconds inp = .ok (rem, v)) : 0 ≤ v ∧ v ≤ tdMaxSecs := by
  obtain ⟨x, hx, hf⟩ := mapOpt_ok h
  obtain ⟨hv, h1, h2⟩ := tdNew_some hf
  subst hv
  exact ⟨Int.ofNat_nonneg _, h2⟩

theorem rel_minutes_inv {inp rem : Input} {v : Int}
    (h : rel_minutes inp = .ok (rem, v)) : 0 ≤ v ∧ v ≤ tdMaxSecs := by
  obtain ⟨x, hx, hf⟩ := mapOpt_ok h
  obtain ⟨hv, h1, h2⟩ := tryScaled_some hf
  subst hv
  refine ⟨mul_nonneg (Int.ofNat_nonneg _) (by omega), h2⟩

theorem rel_hours_inv {inp rem : Input} {v : Int}
    (h : rel_hours inp = .ok (rem, v)) : 0 ≤ v ∧ v ≤ tdMaxSecs := by
  obtain ⟨x, hx, hf⟩ := mapOpt_ok h
  obtain ⟨hv, h1, h2⟩ := tryScaled_some hf
  subst hv
  refine ⟨mul_nonneg (Int.ofNat_nonneg _) (by omega), h2⟩

theorem rel_days_inv {inp rem : Input} {v : Int}
    (h : rel_days inp = .ok (rem, v)) : 0 ≤ v ∧ v ≤ tdMaxSecs := by
  obtain ⟨x, hx, hf⟩ := mapOpt_ok h
  obtain ⟨hv, h1, h2⟩ := tryScaled_some hf
  subst hv
  refine ⟨mul_nonneg (Int.ofNat_nonneg _) (by omega), h2⟩

theorem rel_weeks_inv {inp rem : Input} {v : Int}
    (h : rel_weeks inp = .ok (rem, v)) : 0 ≤ v ∧ v ≤ tdMaxSecs := by
  obtain ⟨x, hx, hf⟩ := mapOpt_ok h
  obtain ⟨hv, h1, h2⟩ := tryScaled_some hf
  subst hv
  refine ⟨mul_nonneg (Int.ofNat_nonneg _) (by omega), h2⟩

/-! ## Invariants through `permutation` -/

/-- Every parser in the pair list only produces values satisfying `Q`,
and every already-collected value satisfies `Q`. -/
def PairsInv {α : Type} (Q : α → Prop) (pairs : List (P α × Option α)) : Prop :=
  ∀ pr ∈ pairs,
    (∀ inp rem v, pr.1 inp = .ok (rem, v) → Q v) ∧ (∀ v, pr.2 = some v → Q v)

theorem permPass_inv {α : Type} {Q : α → Prop} {pairs pairs' : List (P α × Option α)}
    {inp inp' : Input} {err : Option Input}
    (hinv : PairsInv Q pairs)
    (h : permPass pairs inp err = .progressed pairs' inp') :
    PairsInv Q pairs' := by
  induction pairs generalizing pairs' err with
  | nil => simp [permPass] at h
  | cons pr rest ih =>
    obtain ⟨p, res⟩ := pr
    have hhead := hinv _ (List.mem_cons_self _ _)
    have hrest : PairsInv Q rest := fun x hx => hinv x (List.mem_cons_of_mem _ hx)
    cases res with
    | none =>
      unfold permPass at h
      split at h
      next rem v hp =>
        simp only [PassRes.progressed.injEq] at h
        obtain ⟨h1, h2⟩ := h
        subst h1 h2
        intro x hx
        rcases List.mem_cons.mp hx with hx | hx
        · subst hx
          refine ⟨hhead.1, fun v' hv' => ?_⟩
          simp only [Option.some.injEq] at hv'
          subst hv'
          exact hhead.1 _ _ _ hp
        · exact hrest x hx
      next e hp =>
        split at h
        next rest' inp2 hrec =>
          simp only [PassRes.progressed.injEq] at h
          obtain ⟨h1, h2⟩ := h
          subst h1 h2
          intro x hx
          rcases List.mem_cons.mp hx with hx | hx
          · subst hx; exact hhead
          · exact (ih hrest hrec) x hx
        next => exact absurd h (by simp)
    | some v =>
      unfold permPass at h
      split at h
      next rest' inp2 hrec =>
        simp only [PassRes.progressed.injEq] at h
        obtain ⟨h1, h2⟩ := h
        subst h1 h2
        intro x hx
        rcases List.mem_cons.mp hx with hx | hx
        · subst hx; exact hhead
        · exact (ih hrest hrec) x hx
      next => exact absurd h (by simp)

theorem permLoop_inv {α : Type} {Q : α → Prop} {fuel : Nat}
    {pairs : List (P α × Option α)} {inp rem : Input} {slots : List (Option α)}
    (hinv : PairsInv Q pairs)
    (h : permLoop fuel pairs inp = .ok (rem, slots)) :
    ∀ s ∈ slots, ∀ v, s = some v → Q v := by
  induction fuel generalizing pairs inp with
  | zero => simp [permLoop] at h
  | succ fuel ih =>
    unfold permLoop at h
    split at h
    next pairs' inp' hpass => exact ih (permPass_inv hinv hpass) h
    next hpass =>
      simp only [Except.ok.injEq, Prod.mk.injEq] at h
      obtain ⟨h1, h2⟩ := h
      subst h2
      intro s hs v hv
      obtain ⟨pr, hpr, hpr2⟩ := List.mem_map.mp hs
      subst hv
      exact (hinv pr hpr).2 v hpr2
    next => exact absurd h (by simp)

theorem permutation_inv {α : Type} {Q : α → Prop} {ps : List (P α)}
    {inp rem : Input} {slots : List (Option α)}
    (hps : ∀ p ∈ ps, ∀ inp' rem' v, p inp' = .ok (rem', v) → Q v)
    (h : permutation ps inp = .ok (rem, slots)) :
    ∀ s ∈ slots, ∀ v, s = some v → Q v := by
  unfold permutation at h
  refine permLoop_inv ?_ h
  intro pr hpr
  obtain ⟨p, hp, hpr2⟩ := List.mem_map.mp hpr
  subst hpr2
  exact ⟨fun inp' rem' v hv => hps p hp inp' rem' v hv, by simp⟩

/-! ## Invariants of `rel`, `part_rel` and the chained grammars -/

theorem tdMaxSecs_zero_le : (0 : Int) ≤ tdMaxSecs := by decide

theorem rel_ok {inp rem : Input} {td : Int}
    (h : rel inp = .ok (rem, td)) : 0 < td ∧ td ≤ tdMaxSecs := by
  obtain ⟨t, ht, hnz⟩ := mapOpt_ok h
  have hne : t ≠ 0 ∧ td = t := by
    by_cases h0 : t = 0
    · rw [h0] at hnz; simp at hnz
    · rw [if_neg h0] at hnz
      simp only [Option.some.injEq] at hnz
      exact ⟨h0, hnz.symm⟩
  obtain ⟨slots, hs, hsum⟩ := mapOpt_ok ht
  have hq :=
    permutation_inv (Q := fun (v : Option Int) => ∀ w, v = some w → 0 ≤ w ∧ w ≤ tdMaxSecs)
      (by
        intro p hp inp' rem' v hv w hw
        subst hw
        simp only [List.mem_cons, List.not_mem_nil, or_false] at hp
        rcases hp with rfl | rfl | rfl | rfl | rfl
        · exact rel_seconds_inv (opt_ok_some hv)
        · exact rel_minutes_inv (opt_ok_some hv)
        · exact rel_hours_inv (opt_ok_some hv)
        · exact rel_days_inv (opt_ok_some hv)
        · exact rel_weeks_inv (opt_ok_some hv))
      hs
  have hel : ∀ x ∈ slots.filterMap Option.join, 0 ≤ x := by
    intro x hx
    obtain ⟨s, hsmem, hjoin⟩ := List.mem_filterMap.mp hx
    have hs' : s = some (some x) := by
      cases s with
      | none => simp at hjoin
      | some o => simp at hjoin; rw [hjoin]
    exact ((hq s hsmem (some x) hs') x rfl).1
  have hge := sumChecked_ge hel hsum
  have hb := sumChecked_bounds ⟨by simpa using neg_nonpos_of_nonneg tdMaxSecs_zero_le,
    tdMaxSecs_zero_le⟩ hsum
  obtain ⟨hne0, rfl⟩ := hne
  exact ⟨lt_of_le_of_ne hge (Ne.symm hne0), hb.2⟩

theorem part_rel_ok {inp rem : Input} {td : Int}
    (h : part_rel inp = .ok (rem, td)) : 0 < td ∧ td ≤ tdMaxSecs := by
  obtain ⟨t, ht, hnz⟩ := mapOpt_ok h
  have hne : t ≠ 0 ∧ td = t := by
    by_cases h0 : t = 0
    · rw [h0] at hnz; simp at hnz
    · rw [if_neg h0] at hnz
      simp only [Option.some.injEq] at hnz
      exact ⟨h0, hnz.symm⟩
  obtain ⟨slots, hs, hsum⟩ := mapOpt_ok ht
  have hq :=
    permutation_inv (Q := fun (v : Option Int) => ∀ w, v = some w → 0 ≤ w ∧ w ≤ tdMaxSecs)
      (by
        intro p hp inp' rem' v hv w hw
        subst hw
        simp only [List.mem_cons, List.not_mem_nil, or_false] at hp
        rcases hp with rfl | rfl
        · exact rel_days_inv (opt_ok_some hv)
        · exact rel_weeks_inv (opt_ok_some hv))
      hs
  have hel : ∀ x ∈ slots.filterMap Option.join, 0 ≤ x := by
    intro x hx
    obtain ⟨s, hsmem, hjoin⟩ := List.mem_filterMap.mp hx
    have hs' : s = some (some x) := by
      cases s with
      | none => simp at hjoin
      | some o => simp at hjoin; rw [hjoin]
    exact ((hq s hsmem (some x) hs') x rfl).1
  have hge := sumChecked_ge hel hsum
  have hb := sumChecked_bounds ⟨by simpa using neg_nonpos_of_nonneg tdMaxSecs_zero_le,
    tdMaxSecs_zero_le⟩ hsum
  obtain ⟨hne0, rfl⟩ := hne
  exact ⟨lt_of_le_of_ne hge (Ne.symm hne0), hb.2⟩

theorem full_relF_ok : ∀ {fuel : Nat} {inp rem : Input} {td : Int},
    full_relF fuel inp = .ok (rem, td) → 0 < td ∧ td ≤ tdMaxSecs := by
  intro fuel
  induction fuel with
  | zero => intro inp rem td h; simp [full_relF] at h
  | succ fuel ih =>
    intro inp rem td h
    unfold full_relF at h
    obtain ⟨x, hx, hcl⟩ := mapOpt_ok h
    obtain ⟨x1, x2, x3⟩ := x
    obtain ⟨mid1, hopt1, hx2⟩ := pseq_ok hx
    obtain ⟨mid2, hrel, hopt2⟩ := pseq_ok hx2
    cases x3 with
    | none =>
      simp only [Option.some.injEq] at hcl
      subst hcl
      exact rel_ok hrel
    | some nx =>
      have hcl' : tdCheckedAdd x2 nx.2 = some td := hcl
      obtain ⟨hv, h1, h2⟩ := tdCheckedAdd_some hcl'
      obtain ⟨mid3, hsep, hrec⟩ := pseq_ok (opt_ok_some hopt2)
      have hb := rel_ok hrel
      have hn := ih hrec
      subst hv
      constructor
      · omega
      · exact h2

theorem full_part_relF_ok : ∀ {fuel : Nat} {inp rem : Input} {td : Int},
    full_part_relF fuel inp = .ok (rem, td) → 0 < td ∧ td ≤ tdMaxSecs := by
  intro fuel
  induction fuel with
  | zero => intro inp rem td h; simp [full_part_relF] at h
  | succ fuel ih =>
    intro inp rem td h
    unfold full_part_relF at h
    obtain ⟨x, hx, hcl⟩ := mapOpt_ok h
    obtain ⟨x1, x2, x3⟩ := x
    obtain ⟨mid1, hopt1, hx2⟩ := pseq_ok hx
    obtain ⟨mid2, hrel, hopt2⟩ := pseq_ok hx2
    cases x3 with
    | none =>
      simp only [Option.some.injEq] at hcl
      subst hcl
      exact part_rel_ok hrel
    | some nx =>
      have hcl' : tdCheckedAdd x2 nx.2 = some td := hcl
      obtain ⟨hv, h1, h2⟩ := tdCheckedAdd_some hcl'
      obtain ⟨mid3, hsep, hrec⟩ := pseq_ok (opt_ok_some hopt2)
      have hb := part_rel_ok hrel
      have hn := ih hrec
      subst hv
      constructor
      · omega
      · exact h2

theorem full_rel_ok {inp rem : Input} {td : Int}
    (h : full_rel inp = .ok (rem, td)) : 0 < td ∧ td ≤ tdMaxSecs :=
  full_relF_ok h

theorem full_part_rel_ok {inp rem : Input} {td : Int}
    (h : full_part_rel inp = .ok (rem, td)) : 0 < td ∧ td ≤ tdMaxSecs :=
  full_part_relF_ok h

/-! ## Evaluation of the dispatcher -/

theorem topAlt_eval (tz : Tz) (nR nM nA nS : Int) (inp : Input) :
    topAlt tz nR nM nA nS inp =
      (match mixed tz nM inp with
       | .ok r => .ok r
       | .error _ =>
         match abs tz nA nS inp with
         | .ok r => .ok r
         | .error _ => mapOpt full_rel (fun td => utcCheckedAdd nR td) inp) := by
  unfold topAlt
  cases h1 : mixed tz nM inp with
  | ok r => simp [altL, h1]
  | error e =>
    cases h2 : abs tz nA nS inp with
    | ok r => simp [altL, h1, h2]
    | error e2 => simp [altL, h1, h2]

theorem parseTimeM_eval (inp : Input) (tz : Tz) (a b c d : Int) :
    parseTimeM inp tz a b c d =
      (match topAlt tz a b c d inp with
       | .error e => .error e
       | .ok (rem, v) => if rem = [] then .ok v else .error rem) := by
  unfold parseTimeM
  cases h : topAlt tz a b c d inp with
  | error e => rfl
  | ok rv =>
    obtain ⟨rem, v⟩ := rv
    cases rem with
    | nil => rfl
    | cons c' rest => simp [List.isEmpty]

/-! ## Claim theorems -/

/-- Claim C3: a top-level parse succeeds only when the winning branch
consumed the whole input, and when a branch succeeds with a non-empty
remainder the parse fails with exactly that remainder as error value. -/
theorem claim3_full_consumption (inp : Input) (tz : Tz) (n : Int) :
    (∀ v, parse_time inp tz n = .ok v → topAlt tz n n n n inp = .ok ([], v)) ∧
    (∀ rem v, topAlt tz n n n n inp = .ok (rem, v) → rem ≠ [] →
      parse_time inp tz n = .error rem) := by
  constructor
  · intro v hv
    unfold parse_time parseTimeM at hv
    split at hv
    next e heq => exact absurd hv (by simp)
    next rem' v' heq =>
      split at hv
      next hemp =>
        simp only [Except.ok.injEq] at hv
        subst hv
        cases rem' with
        | nil => exact heq
        | cons c r => simp [List.isEmpty] at hemp
      next hemp => exact absurd hv (by simp)
  · intro rem v h hne
    unfold parse_time parseTimeM
    rw [h]
    cases rem with
    | nil => exact absurd rfl hne
    | cons c r => rfl

/-- Witness for C3: `"5mx"` fails with exactly the unconsumed suffix
`"x"`, and a trailing space alone also fails with remainder `" "`. -/
theorem claim3_full_consumption_w :
    parse_time (cs "5mx") tzUtc 0 = .error (cs "x") ∧
    parse_time (cs "5m ") tzUtc 0 = .error (cs " ") :=
  ⟨(claim3_full_consumption (cs "5mx") tzUtc 0).2 (cs "x") 300 rfl (by decide),
   (claim3_full_consumption (cs "5m ") tzUtc 0).2 (cs " ") 300 rfl (by decide)⟩

/-- Claim C6: the dispatcher tries Mixed, then Absolute, then the full
relative-duration branch (whose duration is added to the clock sample
and fails on overflow of the instant range), all against the same
starting input, returning the first success; the result then passes the
full-consumption check. -/
theorem claim6_dispatcher_order (inp : Input) (tz : Tz) (n : Int) :
    (∀ r, mixed tz n inp = .ok r → topAlt tz n n n n inp = .ok r) ∧
    (∀ e r, mixed tz n inp = .error e → abs tz n n inp = .ok r →
      topAlt tz n n n n inp = .ok r) ∧
    (∀ e1 e2 rem td, mixed tz n inp = .error e1 → abs tz n n inp = .error e2 →
      full_rel inp = .ok (rem, td) →
      topAlt tz n n n n inp =
        (match utcCheckedAdd n td with
         | some v => .ok (rem, v)
         | none => .error inp)) ∧
    (parse_time inp tz n =
      (match topAlt tz n n n n inp with
       | .error e => .error e
       | .ok (rem, v) => if rem = [] then .ok v else .error rem)) := by
  refine ⟨?_, ?_, ?_, parseTimeM_eval inp tz n n n n⟩
  · intro r h
    rw [topAlt_eval, h]
  · intro e r h1 h2
    rw [topAlt_eval, h1, h2]
  · intro e1 e2 rem td h1 h2 h3
    rw [topAlt_eval, h1, h2]
    cases hu : utcCheckedAdd n td with
    | some v => exact mapOpt_ok_of h3 hu
    | none => exact mapOpt_none_of h3 hu

/-- Witness for C6: on `"5m"` the Mixed and Absolute branches fail and
the relative branch wins, giving the clock sample plus 300 seconds. -/
theorem claim6_dispatcher_order_w :
    parse_time (cs "5m") tzUtc 0 = .ok 300 := by
  have h := claim6_dispatcher_order (cs "5m") tzUtc 0
  have h3 := h.2.2.1 (cs "m") (cs "m") [] 300 rfl rfl rfl
  rw [h.2.2.2, h3]
  rfl

/-- Claim C5 (code bug): the reference instant is read once per
`Utc::now()` call site, not once per parse.  With all four samples equal
to 0, `"morgen 10:00"` in the zero-offset timezone parses to tomorrow
10:00 = 122400; changing only the sample seen by `abs`'s future check
makes the same parse fail, and changing only the sample seen by
`special_words` changes the result, so the outcome is not a function of
a single clock reading. -/
theorem claim5_clock_sampling :
    parseTimeM (cs "morgen 10:00") tzUtc 0 0 0 0 = .ok 122400 ∧
    parseTimeM (cs "morgen 10:00") tzUtc 0 0 200000 0 = .error (cs "morgen 10:00") ∧
    parseTimeM (cs "morgen 10:00") tzUtc 0 0 0 86400 = .ok 208800 ∧
    parse_time (cs "morgen 10:00") tzUtc 0 = .ok 122400 :=
  ⟨rfl, rfl, rfl, rfl⟩

/-- Claim C7: the relative-duration grammars reject a zero accumulated
duration, in the five-unit form and in the day/week-only form; `"0s"`
and the all-zero composition `"0s 0m"` fail. -/
theorem claim7_nonzero_duration :
    (∀ inp rem td, rel inp = .ok (rem, td) → td ≠ 0) ∧
    (∀ inp rem td, part_rel inp = .ok (rem, td) → td ≠ 0) ∧
    parse_time (cs "0s") tzUtc 0 = .error (cs "0s") ∧
    parse_time (cs "0s 0m") tzUtc 0 = .error (cs "0s 0m") :=
  ⟨fun _ _ _ h => ne_of_gt (rel_ok h).1,
   fun _ _ _ h => ne_of_gt (part_rel_ok h).1, rfl, rfl⟩

/-- Witness for C7: `"1s"` parses to the non-zero duration 1. -/
theorem claim7_nonzero_duration_w :
    rel (cs "1s") = .ok ([], 1) ∧ (1 : Int) ≠ 0 :=
  ⟨rfl, claim7_nonzero_duration.1 (cs "1s") [] 1 rfl⟩

/-- Claim C8: every duration produced by the relative grammars stays in
the checked `TimeDelta` range; a unit value beyond the range
(`"9223372036854776s"`) fails, and a chained sum that overflows
(`"9223372036854775s 1s"`) fails instead of wrapping. -/
theorem claim8_checked_arithmetic :
    (∀ inp rem td, full_rel inp = .ok (rem, td) → -tdMaxSecs ≤ td ∧ td ≤ tdMaxSecs) ∧
    (∀ inp rem td, rel inp = .ok (rem, td) → -tdMaxSecs ≤ td ∧ td ≤ tdMaxSecs) ∧
    rel_seconds (cs "9223372036854776s") = .error (cs "9223372036854776s") ∧
    full_rel (cs "9223372036854775s 1s") = .error (cs "9223372036854775s 1s") := by
  refine ⟨?_, ?_, rfl, rfl⟩
  · intro inp rem td h
    have hb := full_rel_ok h
    have h0 := tdMaxSecs_zero_le
    exact ⟨by omega, hb.2⟩
  · intro inp rem td h
    have hb := rel_ok h
    have h0 := tdMaxSecs_zero_le
    exact ⟨by omega, hb.2⟩

/-- Witness for C8: `"2h"` parses to 7200 seconds, inside the checked range. -/
theorem claim8_checked_arithmetic_w :
    full_rel (cs "2h") = .ok ([], 7200) ∧
    -tdMaxSecs ≤ (7200 : Int) ∧ (7200 : Int) ≤ tdMaxSecs :=
  ⟨rfl, claim8_checked_arithmetic.1 (cs "2h") [] 7200 rfl⟩

/-- Claim C10: every duration produced by a successful relative parse is
strictly positive (the numeral grammar admits digits only and the zero
total is rejected), and `"in -5m"` fails, with the unparsable suffix
`"-5m"` as the error value. -/
theorem claim10_positive_duration :
    (∀ inp rem td, full_rel inp = .ok (rem, td) → 0 < td) ∧
    (∀ inp rem td, rel inp = .ok (rem, td) → 0 < td) ∧
    (∀ inp rem td, part_rel inp = .ok (rem, td) → 0 < td) ∧
    (∀ inp rem td, full_part_rel inp = .ok (rem, td) → 0 < td) ∧
    parse_time (cs "in -5m") tzUtc 0 = .error (cs "-5m") :=
  ⟨fun _ _ _ h => (full_rel_ok h).1, fun _ _ _ h => (rel_ok h).1,
   fun _ _ _ h => (part_rel_ok h).1, fun _ _ _ h => (full_part_rel_ok h).1, rfl⟩

/-- Witness for C10: `"1d"` parses in the day/week grammar to the
strictly positive duration 86400. -/
theorem claim10_positive_duration_w :
    full_part_rel (cs "1d") = .ok ([], 86400) ∧ (0 : Int) < 86400 :=
  ⟨rfl, claim10_positive_duration.2.2.2.1 (cs "1d") [] 86400 rfl⟩

/-- Counterexample to C2 as stated: in the (real, historical)
America/Anchorage timezone fragment, with the clock at local
1867-10-18 20:00 (+14:00:24), the Mixed input `"1d 10:00"` parses
successfully to an instant ten hours BEFORE the clock sample: the Mixed
branch has no future check. -/
theorem claim2_mixed_past_counterexample :
    parse_time (cs "1d 10:00") tzAnch (civilSecs 1867 10 18 20 0 0 - 50424)
      = .ok (civilSecs 1867 10 18 10 0 0 - 50424) ∧
    civilSecs 1867 10 18 10 0 0 - 50424 < civilSecs 1867 10 18 20 0 0 - 50424 :=
  ⟨rfl, by decide⟩

/-- Claim C2 amended: only the Absolute grammar enforces the
strictly-in-the-future requirement (any success of `abs` is strictly
after the clock sample used by its filter); the Mixed grammar performs
no such check and can return an instant not after "now". -/
theorem claim2_future_check :
    (∀ tz nA nS inp rem v, abs tz nA nS inp = .ok (rem, v) → nA < v) ∧
    (∃ inp tz now u, parse_time inp tz now = .ok u ∧ u < now) := by
  constructor
  · intro tz nA nS inp rem v h
    unfold abs at h
    obtain ⟨dt, _, hf⟩ := mapOpt_ok h
    by_cases hlt : nA < dt
    · rw [if_pos hlt] at hf
      simp only [Option.some.injEq] at hf
      rw [← hf]
      exact hlt
    · rw [if_neg hlt] at hf
      exact absurd hf (by simp)
  · exact ⟨cs "1d 10:00", tzAnch, civilSecs 1867 10 18 20 0 0 - 50424,
      civilSecs 1867 10 18 10 0 0 - 50424, rfl, by decide⟩

/-- Witness for C2 (amended): the Absolute parse of
`"26.10.2025 2:30"` in the Berlin fragment yields an instant strictly
after the injected clock sample. -/
theorem claim2_future_check_w :
    civilSecs 2025 10 25 0 30 0 < 1761442200 :=
  claim2_future_check.1 tzBerlin (civilSecs 2025 10 25 0 30 0)
    (civilSecs 2025 10 25 0 30 0) (cs "26.10.2025 2:30") [] 1761442200 rfl

/-- Counterexample to C4 as stated: during the Berlin fall-back
transition the local wall time 2025-10-26 02:30 is ambiguous
(UTC 00:30 or 01:30), yet the Mixed input `"1d 2:30"` whose combination
lands on exactly that wall time FAILS (`single()` rejects ambiguity)
instead of resolving to the later instant, and the whole parse fails. -/
theorem claim4_mixed_ambiguous_counterexample :
    localToUtc tzBerlin (daysFromCivil 2025 10 26 * 86400 + 9000)
      = .lamb 1761438600 1761442200 ∧
    mixed tzBerlin (civilSecs 2025 10 25 0 30 0) (cs "1d 2:30")
      = .error (cs "1d 2:30") ∧
    parse_time (cs "1d 2:30") tzBerlin (civilSecs 2025 10 25 0 30 0)
      = .error (cs " 2:30") :=
  ⟨rfl, rfl, rfl⟩

/-- Claim C4 amended: in the Absolute grammar a gap fails and an
ambiguous local time resolves to the later candidate, while in the
Mixed grammar both a gap and an ambiguity fail (a unique resolution is
required); end-to-end, the ambiguous absolute input
`"26.10.2025 2:30"` resolves to the later UTC instant and the
spring-forward gap input `"29.03.2026 2:30"` fails. -/
theorem claim4_dst_resolution :
    (∀ tz d t e l, localToUtc tz (d * 86400 + Int.ofNat t) = .lamb e l →
      absResolve tz (d, t) = some l) ∧
    (∀ tz d t, localToUtc tz (d * 86400 + Int.ofNat t) = .lnone →
      absResolve tz (d, t) = none) ∧
    (∀ tz n td (ft : Nat) added e l, utcCheckedAdd n td = some added →
      localToUtc tz (localDateOf tz added * 86400 + (ft : Int)) = .lamb e l →
      mixedCombine tz n (td, ft) = none) ∧
    (∀ tz n td (ft : Nat) added, utcCheckedAdd n td = some added →
      localToUtc tz (localDateOf tz added * 86400 + (ft : Int)) = .lnone →
      mixedCombine tz n (td, ft) = none) ∧
    parse_time (cs "26.10.2025 2:30") tzBerlin (civilSecs 2025 10 25 0 30 0)
      = .ok 1761442200 ∧
    parse_time (cs "29.03.2026 2:30") tzBerlin (civilSecs 2025 10 25 0 30 0)
      = .error (cs "29.03.2026 2:30") := by
  refine ⟨?_, ?_, ?_, ?_, rfl, rfl⟩
  · intro tz d t e l h
    unfold absResolve
    rw [h]
    rfl
  · intro tz d t h
    unfold absResolve
    rw [h]
    rfl
  · intro tz n td ft added e l h1 h2
    simp [mixedCombine, h1, h2, LocalRes.singleO]
  · intro tz n td ft added h1 h2
    simp [mixedCombine, h1, h2, LocalRes.singleO]

/-- Witness for C4 (amended): the ambiguous Berlin wall time resolves,
through the Absolute grammar's closure, to the later candidate. -/
theorem claim4_dst_resolution_w :
    absResolve tzBerlin (daysFromCivil 2025 10 26, 9000) = some 1761442200 :=
  claim4_dst_resolution.1 tzBerlin (daysFromCivil 2025 10 26) 9000
    1761438600 1761442200 rfl

/-! ## Digit runs: lemmas for `digit1` and `number` -/

theorem mem_takeWhile {p : Char → Bool} {l : List Char} {c : Char}
    (h : c ∈ l.takeWhile p) : p c = true := by
  induction l with
  | nil => simp [List.takeWhile] at h
  | cons a t ih =>
    rw [List.takeWhile_cons] at h
    by_cases hp : p a = true
    · rw [if_pos hp] at h
      rcases List.mem_cons.mp h with rfl | h
      · exact hp
      · exact ih h
    · rw [if_neg hp] at h
      simp at h

theorem head_dropWhile {p : Char → Bool} {l : List Char} {c : Char}
    (h : (l.dropWhile p).head? = some c) : p c = false := by
  induction l with
  | nil => simp [List.dropWhile] at h
  | cons a t ih =>
    rw [List.dropWhile_cons] at h
    by_cases hp : p a = true
    · rw [if_pos hp] at h
      exact ih h
    · rw [if_neg hp] at h
      simp only [List.head?_cons, Option.some.injEq] at h
      subst h
      exact Bool.not_eq_true _ |>.mp hp

theorem takeWhile_all {p : Char → Bool} {ds rest : List Char}
    (h : ∀ c ∈ ds, p c = true)
    (hr : ∀ c, rest.head? = some c → p c = false) :
    (ds ++ rest).takeWhile p = ds ∧ (ds ++ rest).dropWhile p = rest := by
  induction ds with
  | nil =>
    simp only [List.nil_append]
    cases rest with
    | nil => simp
    | cons c r =>
      have hc := hr c rfl
      simp [List.takeWhile_cons, List.dropWhile_cons, hc]
  | cons c t ih =>
    have hc := h c (List.mem_cons_self _ _)
    have ht := ih (fun x hx => h x (List.mem_cons_of_mem _ hx))
    simp only [List.cons_append, List.takeWhile_cons, List.dropWhile_cons, hc, if_true]
    exact ⟨by rw [ht.1], by rw [ht.2]⟩

theorem number_ok_of {bound : Nat} {ds rest : Input}
    (hne : ds ≠ []) (hd : ∀ c ∈ ds, c.isDigit = true)
    (hr : ∀ c, rest.head? = some c → c.isDigit = false)
    (hb : digitsVal ds ≤ bound) :
    number bound (ds ++ rest) = .ok (rest, digitsVal ds) := by
  obtain ⟨ht, hdr⟩ := takeWhile_all hd hr
  have hemp : ds.isEmpty = false := by
    cases ds with
    | nil => exact absurd rfl hne
    | cons a t => rfl
  simp [number, digit1, ht, hdr, hemp, hb]

theorem number_error_head {bound : Nat} {inp : Input}
    (hr : ∀ c, inp.head? = some c → c.isDigit = false) :
    number bound inp = .error inp := by
  have ht : inp.takeWhile Char.isDigit = [] := by
    cases inp with
    | nil => rfl
    | cons a t =>
      have := hr a rfl
      simp [List.takeWhile_cons, this]
  simp [number, digit1, ht]

theorem number_error_overflow {bound : Nat} {ds rest : Input}
    (hne : ds ≠ []) (hd : ∀ c ∈ ds, c.isDigit = true)
    (hr : ∀ c, rest.head? = some c → c.isDigit = false)
    (hb : bound < digitsVal ds) :
    number bound (ds ++ rest) = .error (ds ++ rest) := by
  obtain ⟨ht, hdr⟩ := takeWhile_all hd hr
  have hemp : ds.isEmpty = false := by
    cases ds with
    | nil => exact absurd rfl hne
    | cons a t => rfl
  simp [number, digit1, ht, hdr, hemp, Nat.not_le_of_lt hb]

/-- Claim C9: the integer combinator succeeds exactly on inputs starting
with a non-empty maximal run of decimal digits whose value fits the
target type's bound; it consumes that run and returns its value, and it
fails (at the original input) exactly when the digit run is empty or
the value overflows the bound.  `digit1` admits no sign or other
characters. -/
theorem claim9_number_spec (bound : Nat) (inp rem : Input) (v : Nat) :
    (number bound inp = .ok (rem, v) ↔
      ∃ ds, inp = ds ++ rem ∧ ds ≠ [] ∧ (∀ c ∈ ds, c.isDigit = true) ∧
        (∀ c, rem.head? = some c → c.isDigit = false) ∧
        v = digitsVal ds ∧ v ≤ bound) ∧
    (number bound inp = .error inp ↔
      (inp.takeWhile Char.isDigit = [] ∨
        bound < digitsVal (inp.takeWhile Char.isDigit))) := by
  constructor
  · constructor
    · intro h
      unfold number at h
      split at h
      next e heq => exact absurd h (by simp)
      next rem' ds' heq =>
        unfold digit1 at heq
        split at heq
        next hemp => exact absurd heq (by simp)
        next hemp =>
          simp only [Except.ok.injEq, Prod.mk.injEq] at heq
          obtain ⟨h1, h2⟩ := heq
          split at h
          next hble =>
            simp only [Except.ok.injEq, Prod.mk.injEq] at h
            obtain ⟨h3, h4⟩ := h
            subst h3
            subst h4
            refine ⟨ds', ?_, ?_, ?_, ?_, rfl, hble⟩
            · rw [← h1, ← h2, List.takeWhile_append_dropWhile]
            · intro hx
              exact hemp (by rw [h2, hx]; rfl)
            · intro c hc
              exact mem_takeWhile (h2 ▸ hc)
            · intro c hc
              refine head_dropWhile (p := Char.isDigit) (l := inp) ?_
              rw [h1]
              exact hc
          next => exact absurd h (by simp)
    · rintro ⟨ds, rfl, hne, hd, hr, rfl, hble⟩
      exact number_ok_of hne hd hr hble
  · constructor
    · intro h
      unfold number at h
      split at h
      next e heq =>
        unfold digit1 at heq
        split at heq
        next hemp =>
          left
          cases he : inp.takeWhile Char.isDigit with
          | nil => rfl
          | cons a t => rw [he] at hemp; exact absurd hemp (by simp [List.isEmpty])
        next hemp => exact absurd heq (by simp)
      next rem' ds' heq =>
        unfold digit1 at heq
        split at heq
        next => exact absurd heq (by simp)
        next hemp =>
          simp only [Except.ok.injEq, Prod.mk.injEq] at heq
          obtain ⟨h1, h2⟩ := heq
          split at h
          next hble => exact absurd h (by simp)
          next hble =>
            right
            rw [h2]
            omega
    · intro h
      rcases h with h | h
      · simp [number, digit1, h]
      · have hemp : (inp.takeWhile Char.isDigit).isEmpty = false := by
          cases he : inp.takeWhile Char.isDigit with
          | nil => rw [he] at h; simp [digitsVal, List.foldl] at h
          | cons a t => rfl
        simp [number, digit1, hemp, Nat.not_le_of_lt h]

/-- Witness for C9: on `"42x"` with bound 255 the combinator consumes the
maximal digit run `"42"` and returns 42 with remainder `"x"`. -/
theorem claim9_number_spec_w :
    number 255 (cs "42x") = .ok (cs "x", 42) :=
  ((claim9_number_spec 255 (cs "42x") (cs "x") 42).1).mpr
    ⟨cs "42", by decide, by decide, by decide, by decide, by decide, by decide⟩

/-! ## Symbolic evaluation helpers: characters, tags, alternation -/

theorem digit_ne_of {c x : Char} (hc : c.isDigit = true) (hx : x.isDigit = false) :
    ¬ x = c := by
  intro he
  rw [he, hc] at hx
  cases hx

theorem tag_error_head {a b : Char} {t inp : Input} (h : ¬ a = b) :
    tag (a :: t) (b :: inp) = .error (b :: inp) := by
  have hab : (a == b) = false := beq_eq_false_iff_ne.mpr h
  simp [tag, List.isPrefixOf, hab]

theorem tag_error_nil {a : Char} {t : Input} : tag (a :: t) [] = .error [] := rfl

theorem tag_ok (t r : Input) : tag t (t ++ r) = .ok (r, t) := by
  have hc : t.isPrefixOf (t ++ r) = true := by
    induction t with
    | nil => simp [List.isPrefixOf]
    | cons a t ih => simp [List.isPrefixOf, ih]
  simp [tag, hc]

theorem tag_error_head2 {a b : Char} {t rest : Input}
    (h : ∀ c, rest.head? = some c → ¬ b = c) :
    tag (a :: b :: t) (a :: rest) = .error (a :: rest) := by
  cases rest with
  | nil => simp [tag, List.isPrefixOf]
  | cons c r =>
    have hbc : (b == c) = false := beq_eq_false_iff_ne.mpr (h c rfl)
    simp [tag, List.isPrefixOf, hbc]

theorem altL_cons_error {α : Type} {p q : P α} {ps : List (P α)} {inp e : Input}
    (h : p inp = .error e) : altL (p :: q :: ps) inp = altL (q :: ps) inp := by
  simp [altL, h]

theorem altL_cons_ok {α : Type} {p q : P α} {ps : List (P α)} {inp : Input}
    {r : Input × α} (h : p inp = .ok r) : altL (p :: q :: ps) inp = .ok r := by
  simp [altL, h]

theorem altL_single {α : Type} {p : P α} {inp : Input} : altL [p] inp = p inp := rfl

theorem head_cons_not_digit {x : Char} {rest : Input} (hx : x.isDigit = false) :
    ∀ c, (x :: rest).head? = some c → c.isDigit = false := by
  intro c hc
  simp only [List.head?_cons, Option.some.injEq] at hc
  rw [← hc]
  exact hx

theorem tdNew_nonneg_some {s : Int} (h0 : 0 ≤ s) (hb : s ≤ tdMaxSecs) :
    tdNew s = some s := by
  have h1 : -tdMaxSecs ≤ s := by
    have := tdMaxSecs_zero_le
    omega
  simp [tdNew, h1, hb]

theorem tryScaled_pos_some {k : Int} {n : Nat} (hk : 0 < k)
    (hb : Int.ofNat n * k ≤ tdMaxSecs) :
    tryScaled k (Int.ofNat n) = some (Int.ofNat n * k) := by
  have h0 : 0 ≤ Int.ofNat n * k := mul_nonneg (Int.ofNat_nonneg _) (le_of_lt hk)
  have hmax : tdMaxSecs < (9223372036854775807 : Int) := by decide
  have h1 : ¬(Int.ofNat n * k < -(9223372036854775808 : Int) ∨
      (9223372036854775807 : Int) < Int.ofNat n * k) := by
    intro hor
    rcases hor with hlt | hgt
    · exact absurd hlt (not_lt.mpr (le_trans (by decide) h0))
    · exact absurd hgt (not_lt.mpr (le_trans hb (le_of_lt hmax)))
  unfold tryScaled
  rw [if_neg h1]
  exact tdNew_nonneg_some h0 hb

/-! ## Symbolic evaluation of the unit recognizers -/

theorem rel_seconds_error {ds : Input} {x : Char} {rest : Input}
    (hne : ds ≠ []) (hd : ∀ c ∈ ds, c.isDigit = true)
    (hx : x.isDigit = false) (hxsp : ¬ (' ' : Char) = x) (hxs : ¬ ('s' : Char) = x) :
    ∃ e, rel_seconds (ds ++ x :: rest) = .error e := by
  have hhd := @head_cons_not_digit x rest hx
  by_cases hb : digitsVal ds ≤ i64Max
  · have hnum := number_ok_of hne hd hhd hb
    have hts1 : tag (cs "sec") (x :: rest) = .error (x :: rest) := tag_error_head hxs
    have hts2 : tag (cs "s") (x :: rest) = .error (x :: rest) := tag_error_head hxs
    have hshort : altL [tag (cs "sec"), tag (cs "s")] (x :: rest) = .error (x :: rest) := by
      rw [altL_cons_error hts1, altL_single]
      exact hts2
    have hbr1 : pseq (opt (tag (cs " "))) (altL [tag (cs "sec"), tag (cs "s")]) (x :: rest)
        = .error (x :: rest) :=
      pseq_error_of2 (opt_of_error (tag_error_head hxsp)) hshort
    have hbr2 : pseq (tag (cs " "))
        (altL [tagMaybeLowercase (cs "Sekunden"), tagMaybeLowercase (cs "Sekunde")])
        (x :: rest) = .error (x :: rest) :=
      pseq_error_of (tag_error_head hxsp)
    refine ⟨x :: rest, mapOpt_error_of (pseq_error_of2 hnum ?_)⟩
    rw [altL_cons_error (pmap_error_of hbr1), altL_single]
    exact pmap_error_of hbr2
  · have hnum := number_error_overflow hne hd hhd (Nat.lt_of_not_le hb)
    exact ⟨ds ++ x :: rest, mapOpt_error_of (pseq_error_of hnum)⟩

theorem rel_minutes_error {ds : Input} {x : Char} {rest : Input}
    (hne : ds ≠ []) (hd : ∀ c ∈ ds, c.isDigit = true)
    (hx : x.isDigit = false) (hxsp : ¬ (' ' : Char) = x) (hxm : ¬ ('m' : Char) = x) :
    ∃ e, rel_minutes (ds ++ x :: rest) = .error e := by
  have hhd := @head_cons_not_digit x rest hx
  by_cases hb : digitsVal ds ≤ i64Max
  · have hnum := number_ok_of hne hd hhd hb
    have hts1 : tag (cs "min") (x :: rest) = .error (x :: rest) := tag_error_head hxm
    have hts2 : tag (cs "m") (x :: rest) = .error (x :: rest) := tag_error_head hxm
    have hshort : altL [tag (cs "min"), tag (cs "m")] (x :: rest) = .error (x :: rest) := by
      rw [altL_cons_error hts1, altL_single]
      exact hts2
    have hbr1 : pseq (opt (tag (cs " "))) (altL [tag (cs "min"), tag (cs "m")]) (x :: rest)
        = .error (x :: rest) :=
      pseq_error_of2 (opt_of_error (tag_error_head hxsp)) hshort
    have hbr2 : pseq (tag (cs " "))
        (altL [tagMaybeLowercase (cs "Minuten"), tagMaybeLowercase (cs "Minute")])
        (x :: rest) = .error (x :: rest) :=
      pseq_error_of (tag_error_head hxsp)
    refine ⟨x :: rest, mapOpt_error_of (pseq_error_of2 hnum ?_)⟩
    rw [altL_cons_error (pmap_error_of hbr1), altL_single]
    exact pmap_error_of hbr2
  · have hnum := number_error_overflow hne hd hhd (Nat.lt_of_not_le hb)
    exact ⟨ds ++ x :: rest, mapOpt_error_of (pseq_error_of hnum)⟩

theorem rel_hours_error {ds : Input} {x : Char} {rest : Input}
    (hne : ds ≠ []) (hd : ∀ c ∈ ds, c.isDigit = true)
    (hx : x.isDigit = false) (hxsp : ¬ (' ' : Char) = x) (hxh : ¬ ('h' : Char) = x) :
    ∃ e, rel_hours (ds ++ x :: rest) = .error e := by
  have hhd := @head_cons_not_digit x rest hx
  by_cases hb : digitsVal ds ≤ i64Max
  · have hnum := number_ok_of hne hd hhd hb
    have hbr1 : pseq (opt (tag (cs " "))) (tag (cs "h")) (x :: rest) = .error (x :: rest) :=
      pseq_error_of2 (opt_of_error (tag_error_head hxsp)) (tag_error_head hxh)
    have hbr2 : pseq (tag (cs " "))
        (altL [tagMaybeLowercase (cs "Stunden"), tagMaybeLowercase (cs "Stunde")])
        (x :: rest) = .error (x :: rest) :=
      pseq_error_of (tag_error_head hxsp)
    refine ⟨x :: rest, mapOpt_error_of (pseq_error_of2 hnum ?_)⟩
    rw [altL_cons_error (pmap_error_of hbr1), altL_single]
    exact pmap_error_of hbr2
  · have hnum := number_error_overflow hne hd hhd (Nat.lt_of_not_le hb)
    exact ⟨ds ++ x :: rest, mapOpt_error_of (pseq_error_of hnum)⟩

theorem rel_days_error {ds : Input} {x : Char} {rest : Input}
    (hne : ds ≠ []) (hd : ∀ c ∈ ds, c.isDigit = true)
    (hx : x.isDigit = false) (hxsp : ¬ (' ' : Char) = x) (hxd : ¬ ('d' : Char) = x) :
    ∃ e, rel_days (ds ++ x :: rest) = .error e := by
  have hhd := @head_cons_not_digit x rest hx
  by_cases hb : digitsVal ds ≤ i64Max
  · have hnum := number_ok_of hne hd hhd hb
    have hbr1 : pseq (opt (tag (cs " "))) (tag (cs "d")) (x :: rest) = .error (x :: rest) :=
      pseq_error_of2 (opt_of_error (tag_error_head hxsp)) (tag_error_head hxd)
    have hbr2 : pseq (tag (cs " "))
        (altL [tagMaybeLowercase (cs "Tagen"), tagMaybeLowercase (cs "Tage"),
          tagMaybeLowercase (cs "Tag")])
        (x :: rest) = .error (x :: rest) :=
      pseq_error_of (tag_error_head hxsp)
    refine ⟨x :: rest, mapOpt_error_of (pseq_error_of2 hnum ?_)⟩
    rw [altL_cons_error (pmap_error_of hbr1), altL_single]
    exact pmap_error_of hbr2
  · have hnum := number_error_overflow hne hd hhd (Nat.lt_of_not_le hb)
    exact ⟨ds ++ x :: rest, mapOpt_error_of (pseq_error_of hnum)⟩

theorem rel_weeks_error {ds : Input} {x : Char} {rest : Input}
    (hne : ds ≠ []) (hd : ∀ c ∈ ds, c.isDigit = true)
    (hx : x.isDigit = false) (hxsp : ¬ (' ' : Char) = x) (hxw : ¬ ('w' : Char) = x) :
    ∃ e, rel_weeks (ds ++ x :: rest) = .error e := by
  have hhd := @head_cons_not_digit x rest hx
  by_cases hb : digitsVal ds ≤ i64Max
  · have hnum := number_ok_of hne hd hhd hb
    have hbr1 : pseq (opt (tag (cs " "))) (tag (cs "w")) (x :: rest) = .error (x :: rest) :=
      pseq_error_of2 (opt_of_error (tag_error_head hxsp)) (tag_error_head hxw)
    have hbr2 : pseq (tag (cs " "))
        (altL [tagMaybeLowercase (cs "Wochen"), tagMaybeLowercase (cs "Woche")])
        (x :: rest) = .error (x :: rest) :=
      pseq_error_of (tag_error_head hxsp)
    refine ⟨x :: rest, mapOpt_error_of (pseq_error_of2 hnum ?_)⟩
    rw [altL_cons_error (pmap_error_of hbr1), altL_single]
    exact pmap_error_of hbr2
  · have hnum := number_error_overflow hne hd hhd (Nat.lt_of_not_le hb)
    exact ⟨ds ++ x :: rest, mapOpt_error_of (pseq_error_of hnum)⟩

theorem rel_minutes_ok {ds rest : Input}
    (hne : ds ≠ []) (hd : ∀ c ∈ ds, c.isDigit = true)
    (hv : digitsVal ds ≤ i64Max)
    (hri : ∀ c, rest.head? = some c → ¬ ('i' : Char) = c)
    (hsc : Int.ofNat (digitsVal ds) * 60 ≤ tdMaxSecs) :
    rel_minutes (ds ++ 'm' :: rest) = .ok (rest, Int.ofNat (digitsVal ds) * 60) := by
  have hhd := @head_cons_not_digit 'm' rest (show ('m' : Char).isDigit = false from rfl)
  have hnum := number_ok_of hne hd hhd hv
  have hsp : opt (tag (cs " ")) ('m' :: rest) = .ok ('m' :: rest, none) :=
    opt_of_error (tag_error_head (by decide))
  have hmin : tag (cs "min") ('m' :: rest) = .error ('m' :: rest) := tag_error_head2 hri
  have hm : tag (cs "m") ('m' :: rest) = .ok (rest, cs "m") := tag_ok (cs "m") rest
  have halt : altL [tag (cs "min"), tag (cs "m")] ('m' :: rest) = .ok (rest, cs "m") := by
    rw [altL_cons_error hmin, altL_single]
    exact hm
  have hb1 : pseq (opt (tag (cs " "))) (altL [tag (cs "min"), tag (cs "m")]) ('m' :: rest)
      = .ok (rest, (none, cs "m")) := pseq_ok_of hsp halt
  have hb1' : pmap (pseq (opt (tag (cs " "))) (altL [tag (cs "min"), tag (cs "m")]))
      (fun _ => ()) ('m' :: rest) = .ok (rest, ()) := pmap_ok_of hb1
  have halt2 : altL
      [pmap (pseq (opt (tag (cs " "))) (altL [tag (cs "min"), tag (cs "m")])) (fun _ => ()),
       pmap (pseq (tag (cs " "))
          (altL [tagMaybeLowercase (cs "Minuten"), tagMaybeLowercase (cs "Minute")]))
        (fun _ => ())] ('m' :: rest) = .ok (rest, ()) := altL_cons_ok hb1'
  have hseq := pseq_ok_of hnum halt2
  have hts : tryScaled 60 (Int.ofNat (digitsVal ds)) = some (Int.ofNat (digitsVal ds) * 60) :=
    tryScaled_pos_some (by decide) hsc
  exact mapOpt_ok_of hseq hts

theorem rel_hours_ok {ds rest : Input}
    (hne : ds ≠ []) (hd : ∀ c ∈ ds, c.isDigit = true)
    (hv : digitsVal ds ≤ i64Max)
    (hsc : Int.ofNat (digitsVal ds) * 3600 ≤ tdMaxSecs) :
    rel_hours (ds ++ 'h' :: rest) = .ok (rest, Int.ofNat (digitsVal ds) * 3600) := by
  have hhd := @head_cons_not_digit 'h' rest (show ('h' : Char).isDigit = false from rfl)
  have hnum := number_ok_of hne hd hhd hv
  have hsp : opt (tag (cs " ")) ('h' :: rest) = .ok ('h' :: rest, none) :=
    opt_of_error (tag_error_head (by decide))
  have hh : tag (cs "h") ('h' :: rest) = .ok (rest, cs "h") := tag_ok (cs "h") rest
  have hb1 : pseq (opt (tag (cs " "))) (tag (cs "h")) ('h' :: rest)
      = .ok (rest, (none, cs "h")) := pseq_ok_of hsp hh
  have hb1' : pmap (pseq (opt (tag (cs " "))) (tag (cs "h"))) (fun _ => ()) ('h' :: rest)
      = .ok (rest, ()) := pmap_ok_of hb1
  have halt2 : altL
      [pmap (pseq (opt (tag (cs " "))) (tag (cs "h"))) (fun _ => ()),
       pmap (pseq (tag (cs " "))
          (altL [tagMaybeLowercase (cs "Stunden"), tagMaybeLowercase (cs "Stunde")]))
        (fun _ => ())] ('h' :: rest) = .ok (rest, ()) := altL_cons_ok hb1'
  have hseq := pseq_ok_of hnum halt2
  have hts : tryScaled 3600 (Int.ofNat (digitsVal ds))
      = some (Int.ofNat (digitsVal ds) * 3600) := tryScaled_pos_some (by decide) hsc
  exact mapOpt_ok_of hseq hts

/-! ## nom's permutation over `opt` components is sequential application -/

theorem opt_never_fails {α : Type} (q : P α) (inp : Input) :
    ∃ rem v, opt q inp = .ok (rem, v) := by
  unfold opt
  cases hq : q inp with
  | error e => exact ⟨inp, none, rfl⟩
  | ok r => exact ⟨r.1, some r.2, rfl⟩

theorem permPass_all_some {α : Type} :
    ∀ (pairs : List (P α × Option α)) (inp : Input) (err : Option Input),
    (∀ pr ∈ pairs, ∃ v, pr.2 = some v) →
    permPass pairs inp err = .exhausted err := by
  intro pairs
  induction pairs with
  | nil => intro inp err h; rfl
  | cons pr rest ih =>
    intro inp err h
    obtain ⟨p, res⟩ := pr
    obtain ⟨v, hv⟩ := h _ (List.mem_cons_self _ _)
    cases res with
    | none => simp at hv
    | some v' =>
      unfold permPass
      rw [ih inp err (fun x hx => h x (List.mem_cons_of_mem _ hx))]

theorem permPass_fill {α : Type} :
    ∀ (done : List (P α × Option α)) (p : P α) (rest : List (P α × Option α))
      (inp rem : Input) (v : α) (err : Option Input),
    (∀ pr ∈ done, ∃ w, pr.2 = some w) →
    p inp = .ok (rem, v) →
    permPass (done ++ (p, none) :: rest) inp err
      = .progressed (done ++ (p, some v) :: rest) rem := by
  intro done
  induction done with
  | nil =>
    intro p rest inp rem v err hdone hp
    simp only [List.nil_append]
    unfold permPass
    rw [hp]
  | cons pr done' ih =>
    intro p rest inp rem v err hdone hp
    obtain ⟨q, res⟩ := pr
    obtain ⟨w, hw⟩ := hdone _ (List.mem_cons_self _ _)
    cases res with
    | none => simp at hw
    | some w' =>
      simp only [List.cons_append]
      unfold permPass
      rw [ih p rest inp rem v err (fun x hx => hdone x (List.mem_cons_of_mem _ hx)) hp]

theorem permLoop_seqOpts {α : Type} :
    ∀ (ps : List (P α)),
    (∀ p ∈ ps, ∀ inp, ∃ rem v, p inp = .ok (rem, v)) →
    ∀ (done : List (P α × Option α)) (inp : Input) (fuel : Nat),
    (∀ pr ∈ done, ∃ v, pr.2 = some v) →
    ps.length + 1 ≤ fuel →
    permLoop fuel (done ++ ps.map (fun p => (p, none))) inp =
      (match seqOpts ps inp with
       | .error e => .error e
       | .ok (rem, vs) => .ok (rem, done.map (fun pr => pr.2) ++ vs)) := by
  intro ps
  induction ps with
  | nil =>
    intro hps done inp fuel hdone hfuel
    cases fuel with
    | zero => omega
    | succ f =>
      unfold permLoop
      rw [List.map_nil, List.append_nil, permPass_all_some done inp none hdone]
      simp [seqOpts]
  | cons p ps' ih =>
    intro hps done inp fuel hdone hfuel
    obtain ⟨rem, v, hp⟩ := hps p (List.mem_cons_self _ _) inp
    cases fuel with
    | zero => simp at hfuel
    | succ f =>
      have hstep : permLoop (f + 1) (done ++ (p, none) :: List.map (fun p => (p, none)) ps') inp
          = permLoop f (done ++ (p, some v) :: List.map (fun p => (p, none)) ps') rem := by
        rw [permLoop]
        rw [permPass_fill done p _ inp rem v none hdone hp]
      have hassoc : done ++ (p, some v) :: List.map (fun p => (p, none)) ps'
          = (done ++ [(p, some v)]) ++ List.map (fun p => (p, none)) ps' := by simp
      rw [List.map_cons, hstep, hassoc]
      rw [ih (fun q hq inp' => hps q (List.mem_cons_of_mem _ hq) inp')
          (done ++ [(p, some v)]) rem f
          (by
            intro pr hpr
            rcases List.mem_append.mp hpr with h | h
            · exact hdone pr h
            · simp only [List.mem_singleton] at h
              rw [h]
              exact ⟨v, rfl⟩)
          (by simp only [List.length_cons] at hfuel; omega)]
      have hs : seqOpts (p :: ps') inp
          = (match seqOpts ps' rem with
             | .error e => .error e
             | .ok (rem2, vs) => .ok (rem2, some v :: vs)) := by
        simp only [seqOpts]
        rw [hp]
      rw [hs]
      cases hseq : seqOpts ps' rem with
      | error e => rfl
      | ok rv =>
        obtain ⟨rem2, vs⟩ := rv
        simp

theorem permutation_seqOpts {α : Type} (ps : List (P α))
    (hps : ∀ p ∈ ps, ∀ inp, ∃ rem v, p inp = .ok (rem, v)) (inp : Input) :
    permutation ps inp =
      (match seqOpts ps inp with
       | .error e => .error e
       | .ok (rem, vs) => .ok (rem, vs)) := by
  unfold permutation
  have h := permLoop_seqOpts ps hps [] inp (ps.length + 1) (by simp) (le_refl _)
  rw [List.nil_append] at h
  rw [h]
  cases hseq : seqOpts ps inp with
  | error e => rfl
  | ok rv =>
    obtain ⟨rem, vs⟩ := rv
    simp

/-! ## Failure of the composite grammars on digit-headed inputs -/

theorem tagMLC_error {t inp : Input} {e1 e2 : Input}
    (h1 : tag t inp = .error e1) (h2 : tag (t.map charLower) inp = .error e2) :
    tagMaybeLowercase t inp = .error e2 := by
  unfold tagMaybeLowercase
  rw [altL_cons_error h1, altL_single]
  exact h2

theorem tagMLC_error_digit {a : Char} {t' : Input} {c : Char} {inp : Input}
    (hc : c.isDigit = true) (ha : a.isDigit = false)
    (hal : (charLower a).isDigit = false) :
    tagMaybeLowercase (a :: t') (c :: inp) = .error (c :: inp) :=
  tagMLC_error (tag_error_head (digit_ne_of hc ha))
    (tag_error_head (digit_ne_of hc hal))

theorem special_words_error {tz : Tz} {n : Int} {c : Char} {inp : Input}
    (hc : c.isDigit = true) :
    special_words tz n (c :: inp) = .error (c :: inp) := by
  have h1 : tagMaybeLowercase (cs "Heute") (c :: inp) = .error (c :: inp) :=
    tagMLC_error_digit hc (by decide) (by decide)
  have h2 : tagMaybeLowercase (cs "Morgen") (c :: inp) = .error (c :: inp) :=
    tagMLC_error_digit hc (by decide) (by decide)
  have h3 : tagMaybeLowercase (cs "Übermorgen") (c :: inp) = .error (c :: inp) :=
    tagMLC_error_digit hc (by decide) (by decide)
  unfold special_words
  rw [altL_cons_error (pmap_error_of h1), altL_cons_error (mapOpt_error_of h2),
    altL_single]
  exact mapOpt_error_of h3

theorem time_error {ds : Input} {x : Char} {rest : Input}
    (hne : ds ≠ []) (hd : ∀ c ∈ ds, c.isDigit = true)
    (hx : x.isDigit = false) (hxc : ¬ (':' : Char) = x) :
    ∃ e, time (ds ++ x :: rest) = .error e := by
  have hhd := @head_cons_not_digit x rest hx
  by_cases hb : digitsVal ds ≤ u32Max
  · have hnum := number_ok_of hne hd hhd hb
    exact ⟨x :: rest,
      mapOpt_error_of (pseq_error_of2 hnum (pseq_error_of (tag_error_head hxc)))⟩
  · have hnum := number_error_overflow hne hd hhd (Nat.lt_of_not_le hb)
    exact ⟨ds ++ x :: rest, mapOpt_error_of (pseq_error_of hnum)⟩

theorem full_time_error {ds : Input} {x : Char} {rest : Input}
    (hne : ds ≠ []) (hd : ∀ c ∈ ds, c.isDigit = true)
    (hx : x.isDigit = false) (hxc : ¬ (':' : Char) = x) :
    ∃ e, full_time (ds ++ x :: rest) = .error e := by
  cases ds with
  | nil => exact absurd rfl hne
  | cons c1 t1 =>
    have hc1 := hd c1 (List.mem_cons_self _ _)
    have hu : tagMaybeLowercase (cs "Um ") ((c1 :: t1) ++ x :: rest)
        = .error ((c1 :: t1) ++ x :: rest) := tagMLC_error_digit hc1 (by decide) (by decide)
    obtain ⟨e, ht⟩ := @time_error (c1 :: t1) x rest (by simp) hd hx hxc
    exact ⟨e, pmap_error_of (pseq_error_of2 (opt_of_error hu) ht)⟩

theorem date_error {ds : Input} {x : Char} {rest : Input}
    (hne : ds ≠ []) (hd : ∀ c ∈ ds, c.isDigit = true)
    (hx : x.isDigit = false) (hxdot : ¬ ('.' : Char) = x) :
    ∃ e, date (ds ++ x :: rest) = .error e := by
  have hhd := @head_cons_not_digit x rest hx
  by_cases hb : digitsVal ds ≤ u32Max
  · have hnum := number_ok_of hne hd hhd hb
    exact ⟨x :: rest,
      mapOpt_error_of (pseq_error_of2 hnum (pseq_error_of (tag_error_head hxdot)))⟩
  · have hnum := number_error_overflow hne hd hhd (Nat.lt_of_not_le hb)
    exact ⟨ds ++ x :: rest, mapOpt_error_of (pseq_error_of hnum)⟩

theorem full_date_error {ds : Input} {x : Char} {rest : Input}
    (hne : ds ≠ []) (hd : ∀ c ∈ ds, c.isDigit = true)
    (hx : x.isDigit = false) (hxdot : ¬ ('.' : Char) = x) :
    ∃ e, full_date (ds ++ x :: rest) = .error e := by
  cases ds with
  | nil => exact absurd rfl hne
  | cons c1 t1 =>
    have hc1 := hd c1 (List.mem_cons_self _ _)
    have hu : tagMaybeLowercase (cs "Am ") ((c1 :: t1) ++ x :: rest)
        = .error ((c1 :: t1) ++ x :: rest) := tagMLC_error_digit hc1 (by decide) (by decide)
    obtain ⟨e, ht⟩ := @date_error (c1 :: t1) x rest (by simp) hd hx hxdot
    exact ⟨e, pmap_error_of (pseq_error_of2 (opt_of_error hu) ht)⟩

theorem part_rel_error {ds : Input} {x : Char} {rest : Input}
    (hne : ds ≠ []) (hd : ∀ c ∈ ds, c.isDigit = true)
    (hx : x.isDigit = false) (hxsp : ¬ (' ' : Char) = x)
    (hxd : ¬ ('d' : Char) = x) (hxw : ¬ ('w' : Char) = x) :
    part_rel (ds ++ x :: rest) = .error (ds ++ x :: rest) := by
  obtain ⟨e1, hdE⟩ := @rel_days_error ds x rest hne hd hx hxsp hxd
  obtain ⟨e2, hwE⟩ := @rel_weeks_error ds x rest hne hd hx hxsp hxw
  have hseq : seqOpts [opt rel_days, opt rel_weeks] (ds ++ x :: rest)
      = .ok (ds ++ x :: rest, [some none, some none]) := by
    simp only [seqOpts, opt_of_error hdE, opt_of_error hwE]
  have hperm : permutation [opt rel_days, opt rel_weeks] (ds ++ x :: rest)
      = .ok (ds ++ x :: rest, [some none, some none]) := by
    rw [permutation_seqOpts _ (by
      intro p hp inp
      simp only [List.mem_cons, List.not_mem_nil, or_false] at hp
      rcases hp with rfl | rfl
      · exact opt_never_fails _ _
      · exact opt_never_fails _ _), hseq]
  have hsum :
      sumChecked (([some none, some none] : List (Option (Option Int))).filterMap Option.join)
      = some 0 := rfl
  exact mapOpt_none_of (mapOpt_ok_of hperm hsum) rfl

theorem full_part_rel_error {ds : Input} {x : Char} {rest : Input}
    (hne : ds ≠ []) (hd : ∀ c ∈ ds, c.isDigit = true)
    (hx : x.isDigit = false) (hxsp : ¬ (' ' : Char) = x)
    (hxd : ¬ ('d' : Char) = x) (hxw : ¬ ('w' : Char) = x) :
    full_part_rel (ds ++ x :: rest) = .error (ds ++ x :: rest) := by
  have hpr := @part_rel_error ds x rest hne hd hx hxsp hxd hxw
  cases ds with
  | nil => exact absurd rfl hne
  | cons c1 t1 =>
    have hc1 := hd c1 (List.mem_cons_self _ _)
    have hIn : tagMaybeLowercase (cs "In ") ((c1 :: t1) ++ x :: rest)
        = .error ((c1 :: t1) ++ x :: rest) := tagMLC_error_digit hc1 (by decide) (by decide)
    unfold full_part_rel
    rw [full_part_relF]
    exact mapOpt_error_of (pseq_error_of2 (opt_of_error hIn) (pseq_error_of hpr))

theorem mixed_error (tz : Tz) (n : Int) {ds : Input} {x : Char} {rest : Input}
    (hne : ds ≠ []) (hd : ∀ c ∈ ds, c.isDigit = true)
    (hx : x.isDigit = false) (hxsp : ¬ (' ' : Char) = x)
    (hxd : ¬ ('d' : Char) = x) (hxw : ¬ ('w' : Char) = x)
    (hxc : ¬ (':' : Char) = x) :
    ∃ e, mixed tz n (ds ++ x :: rest) = .error e := by
  have hfpr := @full_part_rel_error ds x rest hne hd hx hxsp hxd hxw
  obtain ⟨e2, hft⟩ := full_time_error hne hd hx hxc
  refine ⟨e2, ?_⟩
  unfold mixed
  refine mapOpt_error_of ?_
  rw [altL_cons_error (pmap_error_of (pseq_error_of hfpr)), altL_single]
  exact pmap_error_of (pseq_error_of hft)

theorem abs_error (tz : Tz) (nA nS : Int) {ds : Input} {x : Char} {rest : Input}
    (hne : ds ≠ []) (hd : ∀ c ∈ ds, c.isDigit = true)
    (hx : x.isDigit = false) (hxc : ¬ (':' : Char) = x) (hxdot : ¬ ('.' : Char) = x) :
    ∃ e, abs tz nA nS (ds ++ x :: rest) = .error e := by
  obtain ⟨e1, hfd⟩ := full_date_error hne hd hx hxdot
  obtain ⟨e2, hft⟩ := full_time_error hne hd hx hxc
  have hsw : special_words tz nS (ds ++ x :: rest) = .error (ds ++ x :: rest) := by
    cases ds with
    | nil => exact absurd rfl hne
    | cons c1 t1 => exact special_words_error (hd c1 (List.mem_cons_self _ _))
  refine ⟨e2, ?_⟩
  unfold abs
  refine mapOpt_error_of (mapOpt_error_of ?_)
  rw [altL_cons_error (pmap_error_of (pseq_error_of hfd)),
    altL_cons_error (pmap_error_of (pseq_error_of hft)),
    altL_cons_error (pmap_error_of (pseq_error_of hsw)), altL_single]
  exact pmap_error_of (pseq_error_of hft)

/-! ## Evaluation of `rel` and `full_rel` on listed-order unit strings -/

theorem utcCheckedAdd_some_of {t td : Int} (hlo : utcMinSecs ≤ t + td)
    (hhi : t + td ≤ utcMaxSecs) : utcCheckedAdd t td = some (t + td) := by
  simp [utcCheckedAdd, hlo, hhi]

theorem tagIn_error_digit {s rest' : Input} (hne : s ≠ [])
    (hd : ∀ c ∈ s, c.isDigit = true) :
    tagMaybeLowercase (cs "In ") (s ++ rest') = .error (s ++ rest') := by
  cases s with
  | nil => exact absurd rfl hne
  | cons c t =>
    exact tagMLC_error_digit (hd c (List.mem_cons_self _ _)) (by decide) (by decide)

theorem sepP_error_digit {c : Char} {inp : Input} (hc : c.isDigit = true) :
    sepP (c :: inp) = .error (c :: inp) := by
  have hu : tag (cs " und ") (c :: inp) = .error (c :: inp) :=
    tag_error_head (digit_ne_of hc (by decide))
  have hk : tag (cs ", ") (c :: inp) = .error (c :: inp) :=
    tag_error_head (digit_ne_of hc (by decide))
  have hs : tag (cs " ") (c :: inp) = .error (c :: inp) :=
    tag_error_head (digit_ne_of hc (by decide))
  unfold sepP
  rw [altL_cons_error hu, altL_cons_error hk, altL_single]
  exact hs

theorem sepP_digit_append {s rest' : Input} (hne : s ≠ [])
    (hd : ∀ c ∈ s, c.isDigit = true) :
    sepP (s ++ rest') = .error (s ++ rest') := by
  cases s with
  | nil => exact absurd rfl hne
  | cons c t => exact sepP_error_digit (hd c (List.mem_cons_self _ _))

/-- A `full_rel` run with no separator chain: the optional `"In "` tag
fails, `rel` succeeds, and the separator fails on the remainder. -/
theorem full_rel_no_chain {inp rem : Input} {t : Int} {e1 e2 : Input}
    (hIn : tagMaybeLowercase (cs "In ") inp = .error e1)
    (hrel : rel inp = .ok (rem, t))
    (hsep : sepP rem = .error e2) :
    full_rel inp = .ok (rem, t) := by
  unfold full_rel
  rw [full_relF]
  exact mapOpt_ok_of
    (pseq_ok_of (opt_of_error hIn)
      (pseq_ok_of hrel (opt_of_error (pseq_error_of hsep))))
    rfl

theorem foldlM_td_cons {a acc v : Int} {ts : List Int}
    (h : tdCheckedAdd acc a = some v) :
    List.foldlM tdCheckedAdd acc (a :: ts) = List.foldlM tdCheckedAdd v ts := by
  rw [List.foldlM_cons, h]
  rfl

theorem foldlM_td_nil {acc : Int} :
    List.foldlM tdCheckedAdd acc ([] : List Int) = some acc := rfl

theorem rel_eval_mh {s1 s2 : Input}
    (h1 : s1 ≠ []) (h2 : s2 ≠ [])
    (hd1 : ∀ c ∈ s1, c.isDigit = true) (hd2 : ∀ c ∈ s2, c.isDigit = true)
    (hv1 : digitsVal s1 ≤ i64Max) (hv2 : digitsVal s2 ≤ i64Max)
    (hb1 : Int.ofNat (digitsVal s1) * 60 ≤ tdMaxSecs)
    (hb2 : Int.ofNat (digitsVal s2) * 3600 ≤ tdMaxSecs)
    (hbs : Int.ofNat (digitsVal s1) * 60 + Int.ofNat (digitsVal s2) * 3600 ≤ tdMaxSecs)
    (hnz1 : 0 < digitsVal s1) :
    rel (s1 ++ 'm' :: (s2 ++ ['h']))
      = .ok ([], 0 + Int.ofNat (digitsVal s1) * 60 + Int.ofNat (digitsVal s2) * 3600) := by
  have ha0 : (0 : Int) ≤ Int.ofNat (digitsVal s1) * 60 :=
    mul_nonneg (Int.ofNat_nonneg _) (by omega)
  have hb0 : (0 : Int) ≤ Int.ofNat (digitsVal s2) * 3600 :=
    mul_nonneg (Int.ofNat_nonneg _) (by omega)
  have hri : ∀ c, (s2 ++ ['h']).head? = some c → ¬ ('i' : Char) = c := by
    cases s2 with
    | nil => exact absurd rfl h2
    | cons c2 t2 =>
      intro c hc
      simp only [List.cons_append, List.head?_cons, Option.some.injEq] at hc
      rw [← hc]
      exact digit_ne_of (hd2 c2 (List.mem_cons_self _ _)) (by decide)
  obtain ⟨e1, hsecE⟩ :=
    @rel_seconds_error s1 'm' (s2 ++ ['h']) h1 hd1 (by decide) (by decide)
      (by decide)
  have hmin := rel_minutes_ok h1 hd1 hv1 hri hb1
  have hhrs := @rel_hours_ok s2 ([] : Input) h2 hd2 hv2 hb2
  have hdaysE : rel_days ([] : Input) = .error [] := rfl
  have hweeksE : rel_weeks ([] : Input) = .error [] := rfl
  have hall : ∀ p ∈ [opt rel_seconds, opt rel_minutes, opt rel_hours, opt rel_days,
      opt rel_weeks], ∀ inp, ∃ rem v, p inp = .ok (rem, v) := by
    intro p hp inp
    simp only [List.mem_cons, List.not_mem_nil, or_false] at hp
    rcases hp with rfl | rfl | rfl | rfl | rfl <;> exact opt_never_fails _ _
  have hseq : seqOpts [opt rel_seconds, opt rel_minutes, opt rel_hours, opt rel_days,
      opt rel_weeks] (s1 ++ 'm' :: (s2 ++ ['h']))
      = .ok ([], [some none, some (some (Int.ofNat (digitsVal s1) * 60)),
          some (some (Int.ofNat (digitsVal s2) * 3600)), some none, some none]) := by
    simp only [seqOpts, opt_of_error hsecE, opt_of_ok hmin, opt_of_ok hhrs,
      opt_of_error hdaysE, opt_of_error hweeksE]
  have hperm : permutation [opt rel_seconds, opt rel_minutes, opt rel_hours, opt rel_days,
      opt rel_weeks] (s1 ++ 'm' :: (s2 ++ ['h']))
      = .ok ([], [some none, some (some (Int.ofNat (digitsVal s1) * 60)),
          some (some (Int.ofNat (digitsVal s2) * 3600)), some none, some none]) := by
    rw [permutation_seqOpts _ hall, hseq]
  have efm : List.filterMap Option.join
      [some none, some (some (Int.ofNat (digitsVal s1) * 60)),
       some (some (Int.ofNat (digitsVal s2) * 3600)), some none, some none]
      = [Int.ofNat (digitsVal s1) * 60, Int.ofNat (digitsVal s2) * 3600] := rfl
  have e1' : tdCheckedAdd 0 (Int.ofNat (digitsVal s1) * 60)
      = some (0 + Int.ofNat (digitsVal s1) * 60) :=
    tdNew_nonneg_some (by linarith) (by linarith)
  have e2' : tdCheckedAdd (0 + Int.ofNat (digitsVal s1) * 60)
      (Int.ofNat (digitsVal s2) * 3600)
      = some (0 + Int.ofNat (digitsVal s1) * 60 + Int.ofNat (digitsVal s2) * 3600) :=
    tdNew_nonneg_some (by linarith) (by linarith)
  have hsum2 : sumChecked (List.filterMap Option.join
      [some none, some (some (Int.ofNat (digitsVal s1) * 60)),
       some (some (Int.ofNat (digitsVal s2) * 3600)), some none, some none])
      = some (0 + Int.ofNat (digitsVal s1) * 60 + Int.ofNat (digitsVal s2) * 3600) := by
    rw [efm]
    unfold sumChecked
    rw [foldlM_td_cons e1', foldlM_td_cons e2', foldlM_td_nil]
  have hone : (1 : Int) ≤ Int.ofNat (digitsVal s1) := Int.ofNat_le.mpr hnz1
  have hnzv : ¬ (0 + Int.ofNat (digitsVal s1) * 60 + Int.ofNat (digitsVal s2) * 3600 = 0) := by
    have h60 : (60 : Int) ≤ Int.ofNat (digitsVal s1) * 60 := by
      calc (60 : Int) = 1 * 60 := by ring
        _ ≤ Int.ofNat (digitsVal s1) * 60 := mul_le_mul_of_nonneg_right hone (by omega)
    linarith
  exact mapOpt_ok_of (mapOpt_ok_of hperm hsum2) (by rw [if_neg hnzv])

theorem rel_eval_h {s1 s2 : Input}
    (h1 : s1 ≠ []) (h2 : s2 ≠ [])
    (hd1 : ∀ c ∈ s1, c.isDigit = true) (hd2 : ∀ c ∈ s2, c.isDigit = true)
    (hv2 : digitsVal s2 ≤ i64Max)
    (hb2 : Int.ofNat (digitsVal s2) * 3600 ≤ tdMaxSecs)
    (hnz2 : 0 < digitsVal s2) :
    rel (s2 ++ 'h' :: (s1 ++ ['m']))
      = .ok (s1 ++ ['m'], 0 + Int.ofNat (digitsVal s2) * 3600) := by
  have hb0 : (0 : Int) ≤ Int.ofNat (digitsVal s2) * 3600 :=
    mul_nonneg (Int.ofNat_nonneg _) (by omega)
  obtain ⟨e1, hsecE⟩ :=
    @rel_seconds_error s2 'h' (s1 ++ ['m']) h2 hd2 (by decide) (by decide)
      (by decide)
  obtain ⟨e2, hminE⟩ :=
    @rel_minutes_error s2 'h' (s1 ++ ['m']) h2 hd2 (by decide) (by decide)
      (by decide)
  have hhrs := @rel_hours_ok s2 (s1 ++ ['m']) h2 hd2 hv2 hb2
  obtain ⟨e3, hdaysE⟩ :=
    @rel_days_error s1 'm' ([] : Input) h1 hd1 (by decide) (by decide)
      (by decide)
  obtain ⟨e4, hweeksE⟩ :=
    @rel_weeks_error s1 'm' ([] : Input) h1 hd1 (by decide) (by decide)
      (by decide)
  have hall : ∀ p ∈ [opt rel_seconds, opt rel_minutes, opt rel_hours, opt rel_days,
      opt rel_weeks], ∀ inp, ∃ rem v, p inp = .ok (rem, v) := by
    intro p hp inp
    simp only [List.mem_cons, List.not_mem_nil, or_false] at hp
    rcases hp with rfl | rfl | rfl | rfl | rfl <;> exact opt_never_fails _ _
  have hseq : seqOpts [opt rel_seconds, opt rel_minutes, opt rel_hours, opt rel_days,
      opt rel_weeks] (s2 ++ 'h' :: (s1 ++ ['m']))
      = .ok (s1 ++ ['m'], [some none, some none,
          some (some (Int.ofNat (digitsVal s2) * 3600)), some none, some none]) := by
    simp only [seqOpts, opt_of_error hsecE, opt_of_error hminE, opt_of_ok hhrs,
      opt_of_error hdaysE, opt_of_error hweeksE]
  have hperm : permutation [opt rel_seconds, opt rel_minutes, opt rel_hours, opt rel_days,
      opt rel_weeks] (s2 ++ 'h' :: (s1 ++ ['m']))
      = .ok (s1 ++ ['m'], [some none, some none,
          some (some (Int.ofNat (digitsVal s2) * 3600)), some none, some none]) := by
    rw [permutation_seqOpts _ hall, hseq]
  have efm : List.filterMap Option.join
      ([some none, some none, some (some (Int.ofNat (digitsVal s2) * 3600)),
        some none, some none] : List (Option (Option Int)))
      = [Int.ofNat (digitsVal s2) * 3600] := rfl
  have e1' : tdCheckedAdd 0 (Int.ofNat (digitsVal s2) * 3600)
      = some (0 + Int.ofNat (digitsVal s2) * 3600) :=
    tdNew_nonneg_some (by linarith) (by linarith)
  have hsum2 : sumChecked (List.filterMap Option.join
      ([some none, some none, some (some (Int.ofNat (digitsVal s2) * 3600)),
        some none, some none] : List (Option (Option Int))))
      = some (0 + Int.ofNat (digitsVal s2) * 3600) := by
    rw [efm]
    unfold sumChecked
    rw [foldlM_td_cons e1', foldlM_td_nil]
  have hone : (1 : Int) ≤ Int.ofNat (digitsVal s2) := Int.ofNat_le.mpr hnz2
  have hnzv : ¬ (0 + Int.ofNat (digitsVal s2) * 3600 = 0) := by
    have h36 : (3600 : Int) ≤ Int.ofNat (digitsVal s2) * 3600 := by
      calc (3600 : Int) = 1 * 3600 := by ring
        _ ≤ Int.ofNat (digitsVal s2) * 3600 := mul_le_mul_of_nonneg_right hone (by omega)
    linarith
  exact mapOpt_ok_of (mapOpt_ok_of hperm hsum2) (by rw [if_neg hnzv])

/-- Dispatcher wiring for the relative branch. -/
theorem parse_third_branch {tz : Tz} {n : Int} {inp e1 e2 rem : Input} {td v : Int}
    (hm : mixed tz n inp = .error e1) (ha : abs tz n n inp = .error e2)
    (hf : full_rel inp = .ok (rem, td)) (hu : utcCheckedAdd n td = some v) :
    parse_time inp tz n = (if rem = [] then .ok v else .error rem) := by
  unfold parse_time
  rw [parseTimeM_eval]
  have htop : topAlt tz n n n n inp = .ok (rem, v) := by
    unfold topAlt
    rw [altL_cons_error hm, altL_cons_error ha, altL_single]
    exact mapOpt_ok_of hf hu
  rw [htop]

/-- Counterexample to C1 as stated: `"1h30m"` does NOT parse — nom's
`permutation` over `opt`-wrapped unit recognizers applies the units in
listed order (seconds, minutes, hours, days, weeks), so after the
minutes slot is consumed as absent, `"30m"` is left over and the parse
fails with remainder `"30m"`; the reordering `"30m1h"` succeeds with
now + 5400 seconds. -/
theorem claim1_any_order_counterexample :
    parse_time (cs "1h30m") tzUtc 0 = .error (cs "30m") ∧
    parse_time (cs "30m1h") tzUtc 0 = .ok 5400 :=
  ⟨rfl, rfl⟩

/-- Claim C1 amended: unit values combine to the checked sum added to
the injected "now" only when written in the listed unit order; for any
digit strings s1 (minutes) and s2 (hours) with non-zero values and
non-overflowing checked sums, `"<s1>m<s2>h"` parses to
now + 60·s1 + 3600·s2, while the hour-first form `"<s2>h<s1>m"` fails
with the unconsumed suffix `"<s1>m"`. -/
theorem claim1_ordered_units (s1 s2 : Input) (tz : Tz) (now : Int)
    (h1 : s1 ≠ []) (h2 : s2 ≠ [])
    (hd1 : ∀ c ∈ s1, c.isDigit = true) (hd2 : ∀ c ∈ s2, c.isDigit = true)
    (hv1 : digitsVal s1 ≤ i64Max) (hv2 : digitsVal s2 ≤ i64Max)
    (hb1 : Int.ofNat (digitsVal s1) * 60 ≤ tdMaxSecs)
    (hb2 : Int.ofNat (digitsVal s2) * 3600 ≤ tdMaxSecs)
    (hbs : Int.ofNat (digitsVal s1) * 60 + Int.ofNat (digitsVal s2) * 3600 ≤ tdMaxSecs)
    (hnz1 : 0 < digitsVal s1) (hnz2 : 0 < digitsVal s2)
    (hlo : utcMinSecs ≤ now)
    (hhi : now + (Int.ofNat (digitsVal s1) * 60 + Int.ofNat (digitsVal s2) * 3600)
      ≤ utcMaxSecs) :
    parse_time (s1 ++ 'm' :: (s2 ++ ['h'])) tz now
      = .ok (now + (Int.ofNat (digitsVal s1) * 60 + Int.ofNat (digitsVal s2) * 3600)) ∧
    parse_time (s2 ++ 'h' :: (s1 ++ ['m'])) tz now = .error (s1 ++ ['m']) := by
  have ha0 : (0 : Int) ≤ Int.ofNat (digitsVal s1) * 60 :=
    mul_nonneg (Int.ofNat_nonneg _) (by omega)
  have hb0 : (0 : Int) ≤ Int.ofNat (digitsVal s2) * 3600 :=
    mul_nonneg (Int.ofNat_nonneg _) (by omega)
  constructor
  · obtain ⟨em, hmix⟩ := @mixed_error tz now s1 'm' (s2 ++ ['h']) h1 hd1
      (by decide) (by decide) (by decide) (by decide) (by decide)
    obtain ⟨ea, habs⟩ := @abs_error tz now now s1 'm' (s2 ++ ['h']) h1 hd1
      (by decide) (by decide) (by decide)
    have hrel := rel_eval_mh h1 h2 hd1 hd2 hv1 hv2 hb1 hb2 hbs hnz1
    have hIn : tagMaybeLowercase (cs "In ") (s1 ++ 'm' :: (s2 ++ ['h']))
        = .error (s1 ++ 'm' :: (s2 ++ ['h'])) := tagIn_error_digit h1 hd1
    have hfull := full_rel_no_chain hIn hrel rfl
    have hval : (0 : Int) + Int.ofNat (digitsVal s1) * 60 + Int.ofNat (digitsVal s2) * 3600
        = Int.ofNat (digitsVal s1) * 60 + Int.ofNat (digitsVal s2) * 3600 := by ring
    rw [hval] at hfull
    have hutc : utcCheckedAdd now
        (Int.ofNat (digitsVal s1) * 60 + Int.ofNat (digitsVal s2) * 3600)
        = some (now + (Int.ofNat (digitsVal s1) * 60 + Int.ofNat (digitsVal s2) * 3600)) :=
      utcCheckedAdd_some_of (by linarith) hhi
    have hp1 := parse_third_branch hmix habs hfull hutc
    rw [if_pos rfl] at hp1
    exact hp1
  · obtain ⟨em2, hmix2⟩ := @mixed_error tz now s2 'h' (s1 ++ ['m']) h2 hd2
      (by decide) (by decide) (by decide) (by decide) (by decide)
    obtain ⟨ea2, habs2⟩ := @abs_error tz now now s2 'h' (s1 ++ ['m']) h2 hd2
      (by decide) (by decide) (by decide)
    have hrel2 := rel_eval_h h1 h2 hd1 hd2 hv2 hb2 hnz2
    have hIn2 : tagMaybeLowercase (cs "In ") (s2 ++ 'h' :: (s1 ++ ['m']))
        = .error (s2 ++ 'h' :: (s1 ++ ['m'])) := tagIn_error_digit h2 hd2
    have hsep2 : sepP (s1 ++ ['m']) = .error (s1 ++ ['m']) := sepP_digit_append h1 hd1
    have hfull2 := full_rel_no_chain hIn2 hrel2 hsep2
    have hval2 : (0 : Int) + Int.ofNat (digitsVal s2) * 3600
        = Int.ofNat (digitsVal s2) * 3600 := by ring
    rw [hval2] at hfull2
    have hutc2 : utcCheckedAdd now (Int.ofNat (digitsVal s2) * 3600)
        = some (now + Int.ofNat (digitsVal s2) * 3600) :=
      utcCheckedAdd_some_of (by linarith) (by linarith)
    have hp2 := parse_third_branch hmix2 habs2 hfull2 hutc2
    have hne2 : ¬ (s1 ++ ['m'] = ([] : Input)) := by
      cases s1 with
      | nil => simp
      | cons a t => simp
    rw [if_neg hne2] at hp2
    exact hp2

/-- Witness for C1 (amended): with s1 = "30", s2 = "1" and now = 0 in
the zero-offset timezone, `"30m1h"` parses to 5400 and `"1h30m"` fails
with remainder `"30m"`. -/
theorem claim1_ordered_units_w :
    parse_time (cs "30m1h") tzUtc 0 = .ok 5400 ∧
    parse_time (cs "1h30m") tzUtc 0 = .error (cs "30m") := by
  have h := claim1_ordered_units (cs "30") (cs "1") tzUtc 0 (by decide) (by decide)
    (by decide) (by decide) (by decide) (by decide) (by decide) (by decide) (by decide)
    (by decide) (by decide) (by decide) (by decide)
  exact ⟨h.1, h.2⟩

end DoBot
